import Mathlib

/-!
Verification of the core compiler of the functionless repository: the AST
node model with its control-flow queries (node.ts), the AppSync resolver
pipeline compiler (appsync.ts), the expression flattener / constant folder
(the event-bridge utils module), and the `$SFN` state-machine call forms
(step-function.ts).  Each TypeScript function is embedded shallowly as an
executable Lean definition; theorems then settle the specification claims
about these definitions.
-/

namespace Functionless

/-! ## Unique name allocation (appsync.ts, `getUniqueName`)

The source keeps a `WeakMap<GraphqlApi, { [name: string]: number }>`; one
entry of that map (one namespace, i.e. one GraphQL API) is a partial map
from logical names to counters. -/

/-- One namespace's name-counter table: `names.get(api)` in appsync.ts.
`none` means the name was never requested in this namespace. -/
abbrev UniqueNames : Type := String → Option Nat

/-- A fresh namespace (the `uniqueNames = {}` initialisation). -/
def emptyUniqueNames : UniqueNames := fun _ => none

/-- `getUniqueName(api, name)` from appsync.ts: if the counter for `name`
is undefined, store `0` and return `name`; otherwise increment the stored
counter and return `` `${name}_${counter}` `` built from the counter value
read before the increment. -/
def getUniqueName (u : UniqueNames) (name : String) : String × UniqueNames :=
  match u name with
  | none => (name, fun n => if n = name then some 0 else u n)
  | some counter =>
      (name ++ "_" ++ Nat.repr counter,
       fun n => if n = name then some (counter + 1) else u n)

/-- Thread a sequence of `getUniqueName` requests through one namespace,
collecting the returned strings in order. -/
def runUniqueNames (u : UniqueNames) : List String → List String × UniqueNames
  | [] => ([], u)
  | name :: rest =>
      let r := getUniqueName u name
      let rs := runUniqueNames r.2 rest
      (r.1 :: rs.1, rs.2)

/-! Decimal rendering facts about `Nat.repr`, needed to reason about the
`` `${name}_${counter}` `` strings produced by `getUniqueName`. -/

/-- Value of a big-endian list of decimal digit characters, as laid down
by `Nat.toDigitsCore`. -/
def decDigitsVal (cs : List Char) : Nat :=
  cs.foldl (fun a c => a * 10 + (c.toNat - 48)) 0

lemma digitChar_toNat {m : Nat} (h : m < 10) : (Nat.digitChar m).toNat = m + 48 := by
  interval_cases m <;> rfl

lemma toDigitsCore_decode (fuel : Nat) :
    ∀ (n : Nat) (ds : List Char), n < fuel →
      ∃ pre : List Char, Nat.toDigitsCore 10 fuel n ds = pre ++ ds ∧ pre ≠ [] ∧
        ∀ a : Nat,
          pre.foldl (fun a c => a * 10 + (c.toNat - 48)) a = a * 10 ^ pre.length + n := by
  induction fuel with
  | zero => intro n ds h; omega
  | succ fuel ih =>
    intro n ds h
    by_cases hz : n / 10 = 0
    · refine ⟨[Nat.digitChar (n % 10)], ?_, by simp, ?_⟩
      · simp [Nat.toDigitsCore, hz]
      · intro a
        have hn10 : n < 10 := by omega
        have hn : n % 10 = n := by omega
        simp [List.foldl, hn, digitChar_toNat hn10, pow_one]
    · have hlt : n / 10 < fuel := by
        have h1 : n / 10 < n := Nat.div_lt_self (by omega) (by omega)
        omega
      obtain ⟨pre', hpre', hne', hval'⟩ := ih (n / 10) (Nat.digitChar (n % 10) :: ds) hlt
      refine ⟨pre' ++ [Nat.digitChar (n % 10)], ?_, by simp, ?_⟩
      · simpa [Nat.toDigitsCore, hz, List.append_assoc] using hpre'
      · intro a
        have hmod : n % 10 < 10 := Nat.mod_lt n (by omega)
        rw [List.foldl_append, hval' a]
        simp [digitChar_toNat hmod, List.length_append, pow_succ]
        have := Nat.div_add_mod n 10
        ring_nf
        omega

lemma decDigitsVal_toDigits (n : Nat) : decDigitsVal (Nat.toDigits 10 n) = n := by
  obtain ⟨pre, hpre, _, hval⟩ :=
    toDigitsCore_decode (n + 1) n [] (Nat.lt_succ_self n)
  unfold Nat.toDigits
  rw [hpre, List.append_nil]
  simpa [decDigitsVal] using hval 0

lemma natRepr_injective : Function.Injective Nat.repr := by
  intro m n h
  unfold Nat.repr at h
  have hdig : Nat.toDigits 10 m = Nat.toDigits 10 n := by
    have := congrArg String.data h
    simpa [List.asString] using this
  have := congrArg decDigitsVal hdig
  rwa [decDigitsVal_toDigits, decDigitsVal_toDigits] at this

lemma string_append_left_cancel {s a b : String} (h : s ++ a = s ++ b) : a = b := by
  have hd := congrArg String.data h
  simp only [String.data_append] at hd
  exact String.ext (List.append_cancel_left hd)

lemma suffixed_name_ne (name : String) (c : Nat) : name ≠ name ++ "_" ++ Nat.repr c := by
  intro h
  have := congrArg String.length h
  have hlen : (Nat.repr c).length ≠ 0 := by
    obtain ⟨pre, hpre, hne, _⟩ :=
      toDigitsCore_decode (c + 1) c [] (Nat.lt_succ_self c)
    unfold Nat.repr Nat.toDigits
    rw [hpre, List.append_nil]
    simpa [List.asString, String.length, List.length_eq_zero] using hne
  simp [String.length_append] at this
  omega

lemma suffixed_name_inj {name : String} {c d : Nat}
    (h : name ++ "_" ++ Nat.repr c = name ++ "_" ++ Nat.repr d) : c = d := by
  rw [String.append_assoc, String.append_assoc] at h
  have h2 := string_append_left_cancel h
  have h3 := string_append_left_cancel h2
  exact natRepr_injective h3

lemma nat_repr_zero : Nat.repr 0 = "0" := rfl

lemma nat_repr_one : Nat.repr 1 = "1" := rfl

lemma underscore_append_zero : ("_" : String) ++ "0" = "_0" := rfl

lemma underscore_append_one : ("_" : String) ++ "1" = "_1" := rfl

/-- **C4.** Within one namespace, three `getUniqueName` requests for the same
logical name — starting from a state in which that name was never requested —
return `name`, `name_0` and `name_1` in that order. -/
theorem getUniqueName_three_calls (u : UniqueNames) (name : String)
    (h : u name = none) :
    (getUniqueName u name).1 = name ∧
    (getUniqueName (getUniqueName u name).2 name).1 = name ++ "_0" ∧
    (getUniqueName (getUniqueName (getUniqueName u name).2 name).2 name).1 =
      name ++ "_1" := by
  refine ⟨by simp [getUniqueName, h], ?_, ?_⟩ <;>
    simp [getUniqueName, h, nat_repr_zero, nat_repr_one, String.append_assoc,
      underscore_append_zero, underscore_append_one]

/-- Witness for `getUniqueName_three_calls` at `name := "a"` in the fresh
namespace. -/
theorem getUniqueName_three_calls_witness :
    emptyUniqueNames "a" = none ∧
    ((getUniqueName emptyUniqueNames "a").1 = "a" ∧
     (getUniqueName (getUniqueName emptyUniqueNames "a").2 "a").1 = "a" ++ "_0" ∧
     (getUniqueName (getUniqueName (getUniqueName emptyUniqueNames "a").2 "a").2
        "a").1 = "a" ++ "_1") :=
  ⟨rfl, getUniqueName_three_calls emptyUniqueNames "a" rfl⟩

/-- **C9 (counterexample).** Against one fresh namespace, requesting `a_0`,
then `a`, then `a` again returns `a_0`, `a`, `a_0`: the third returned string
collides with the first, so the returned strings are not pairwise distinct. -/
theorem runUniqueNames_clash :
    (runUniqueNames emptyUniqueNames ["a_0", "a", "a"]).1 = ["a_0", "a", "a_0"] ∧
    ¬ ((runUniqueNames emptyUniqueNames ["a_0", "a", "a"]).1).Nodup := by
  constructor
  · rfl
  · intro hn
    rw [show (runUniqueNames emptyUniqueNames ["a_0", "a", "a"]).1 =
        ["a_0", "a", "a_0"] from rfl] at hn
    simp [List.nodup_cons] at hn

lemma runUniqueNames_replicate_counted (name : String) :
    ∀ (k : Nat) (u : UniqueNames) (c : Nat), u name = some c →
      (runUniqueNames u (List.replicate k name)).1 =
        (List.range k).map (fun i => name ++ "_" ++ Nat.repr (c + i)) := by
  intro k
  induction k with
  | zero => intro u c _; simp [runUniqueNames]
  | succ k ih =>
    intro u c h
    have hstep : getUniqueName u name =
        (name ++ "_" ++ Nat.repr c,
         fun n => if n = name then some (c + 1) else u n) := by
      simp [getUniqueName, h]
    have hnext : (fun n => if n = name then some (c + 1) else u n) name =
        some (c + 1) := by simp
    rw [List.replicate_succ]
    simp only [runUniqueNames, hstep,
      ih (fun n => if n = name then some (c + 1) else u n) (c + 1) hnext]
    rw [List.range_succ_eq_map, List.map_cons, List.map_map]
    simp only [Nat.add_zero, Function.comp]
    congr 1
    refine List.map_congr_left (fun i _ => ?_)
    congr 2
    omega

/-- **C9 (amended).** For a sequence of `getUniqueName` calls against one
fresh namespace that all request the *same* logical name, the returned
strings are pairwise distinct. -/
theorem runUniqueNames_same_name_nodup (u : UniqueNames) (name : String)
    (h : u name = none) (n : Nat) :
    ((runUniqueNames u (List.replicate n name)).1).Nodup := by
  cases n with
  | zero => simp [runUniqueNames]
  | succ m =>
    have hstep : getUniqueName u name =
        (name, fun n => if n = name then some 0 else u n) := by
      simp [getUniqueName, h]
    have hnext : (fun n => if n = name then some 0 else u n) name = some 0 := by
      simp
    rw [List.replicate_succ]
    simp only [runUniqueNames, hstep,
      runUniqueNames_replicate_counted name m
        (fun n => if n = name then some 0 else u n) 0 hnext]
    rw [List.nodup_cons]
    constructor
    · intro hmem
      obtain ⟨i, _, hi⟩ := List.mem_map.mp hmem
      exact suffixed_name_ne name (0 + i) hi.symm
    · refine (List.nodup_range m).map ?_
      intro i j hij
      have := suffixed_name_inj hij
      omega

/-- Witness for `runUniqueNames_same_name_nodup` with three requests for
`"a"` in the fresh namespace. -/
theorem runUniqueNames_same_name_nodup_witness :
    emptyUniqueNames "a" = none ∧
    ((runUniqueNames emptyUniqueNames (List.replicate 3 "a")).1).Nodup :=
  ⟨rfl, runUniqueNames_same_name_nodup emptyUniqueNames "a" rfl 3⟩

/-! ## AST node model (node.ts)

The control-flow queries of node.ts (`findCatchClause`, `findParent`,
`contains`, `throw`) inspect only the tree shape: try statements with
their three child slots, catch clauses with theirs, blocks, and the
ordered children of every other node kind.  The tree is embedded as an
inductive; a *node* of a tree `t` is addressed by its position (the object
reference of the source becomes the position, so reference equality
becomes position equality, and the `parent` field becomes dropping the
innermost step of the position). -/

/-- The node shapes distinguished by the node.ts control-flow queries:
`TryStmt` (try block, optional catch clause, optional finally block),
`CatchClause` (optional caught-variable declaration, body block),
`BlockStmt`, and every other kind collapsed to `other` with its ordered
children. -/
inductive Node where
  | tryStmt (tryBlock : Node) (catchClause : Option Node) (finallyBlock : Option Node)
  | catchClause (variableDecl : Option Node) (block : Node)
  | blockStmt (stmts : List Node)
  | other (children : List Node)

/-- One step from a node to one of its children: a named child slot of a
try statement or catch clause, or the `i`-th entry of a child list. -/
inductive Step where
  | tryB | catchB | finallyB | catchVar | catchBlk
  | child (i : Nat)
  deriving DecidableEq

/-- A position in a tree, innermost step first: `[]` is the root and
`s :: p` is the `s`-child of the node at `p`. -/
abbrev Pos := List Step

/-- The child of a node reached by one step. -/
def childAt : Node → Step → Option Node
  | Node.tryStmt tb _ _, Step.tryB => some tb
  | Node.tryStmt _ cc _, Step.catchB => cc
  | Node.tryStmt _ _ fb, Step.finallyB => fb
  | Node.catchClause vd _, Step.catchVar => vd
  | Node.catchClause _ blk, Step.catchBlk => some blk
  | Node.blockStmt stmts, Step.child i => stmts.get? i
  | Node.other kids, Step.child i => kids.get? i
  | _, _ => none

/-- The node of `t` at position `p` (`none` when `p` does not address a
node of `t`). -/
def nodeAt (t : Node) : Pos → Option Node
  | [] => some t
  | s :: p => (nodeAt t p).bind (fun n => childAt n s)

/-- Enumerate a child list with its steps, starting at index `i`. -/
def listChildren (i : Nat) : List Node → List (Step × Node)
  | [] => []
  | c :: cs => (Step.child i, c) :: listChildren (i + 1) cs

/-- The zero-or-one children contributed by an optional child slot. -/
def optChild (s : Step) : Option Node → List (Step × Node)
  | none => []
  | some c => [(s, c)]

/-- The `children` array of a node with the step addressing each child, in
attachment order (`setParent` is called in constructor-argument order). -/
def childrenWithSteps : Node → List (Step × Node)
  | Node.tryStmt tb cc fb =>
      (Step.tryB, tb) :: (optChild Step.catchB cc ++ optChild Step.finallyB fb)
  | Node.catchClause vd blk => optChild Step.catchVar vd ++ [(Step.catchBlk, blk)]
  | Node.blockStmt stmts => listChildren 0 stmts
  | Node.other kids => listChildren 0 kids

mutual
/-- `contains(node, "dfs")` from node.ts: iterate over `children`; for
each child first test object identity, then recurse into that child
before moving to the next sibling.  `a` and `b` are the positions of the
receiver (whose subtree is `n`) and of the sought node. -/
def containsDfs : Node → Pos → Pos → Bool
  | Node.tryStmt tb cc fb, a, b =>
      (decide (Step.tryB :: a = b) || containsDfs tb (Step.tryB :: a) b) ||
      (containsOptDfs cc Step.catchB a b || containsOptDfs fb Step.finallyB a b)
  | Node.catchClause vd blk, a, b =>
      containsOptDfs vd Step.catchVar a b ||
      (decide (Step.catchBlk :: a = b) || containsDfs blk (Step.catchBlk :: a) b)
  | Node.blockStmt stmts, a, b => containsListDfs stmts 0 a b
  | Node.other kids, a, b => containsListDfs kids 0 a b

/-- Depth-first sweep over an optional child slot. -/
def containsOptDfs : Option Node → Step → Pos → Pos → Bool
  | none, _, _, _ => false
  | some c, s, a, b => decide (s :: a = b) || containsDfs c (s :: a) b

/-- Depth-first sweep over a child list starting at index `i`. -/
def containsListDfs : List Node → Nat → Pos → Pos → Bool
  | [], _, _, _ => false
  | c :: cs, i, a, b =>
      (decide (Step.child i :: a = b) || containsDfs c (Step.child i :: a) b) ||
      containsListDfs cs (i + 1) a b
end

/-- The first loop of `contains(node, "bfs")`: test every child for
object identity without recursing. -/
def childEqAny (n : Node) (a b : Pos) : Bool :=
  (childrenWithSteps n).any (fun sc => decide (sc.1 :: a = b))

mutual
/-- `contains(node, "bfs")` from node.ts: first test every child for
object identity, then recurse into each child in order. -/
def containsBfs : Node → Pos → Pos → Bool
  | n@(Node.tryStmt tb cc fb), a, b =>
      childEqAny n a b ||
      (containsBfs tb (Step.tryB :: a) b ||
       (containsOptBfs cc Step.catchB a b || containsOptBfs fb Step.finallyB a b))
  | n@(Node.catchClause vd blk), a, b =>
      childEqAny n a b ||
      (containsOptBfs vd Step.catchVar a b ||
       containsBfs blk (Step.catchBlk :: a) b)
  | n@(Node.blockStmt stmts), a, b => childEqAny n a b || containsListBfs stmts 0 a b
  | n@(Node.other kids), a, b => childEqAny n a b || containsListBfs kids 0 a b

/-- Breadth-first recursion over an optional child slot. -/
def containsOptBfs : Option Node → Step → Pos → Pos → Bool
  | none, _, _, _ => false
  | some c, s, a, b => containsBfs c (s :: a) b

/-- Breadth-first recursion over a child list starting at index `i`. -/
def containsListBfs : List Node → Nat → Pos → Pos → Bool
  | [], _, _, _ => false
  | c :: cs, i, a, b =>
      containsBfs c (Step.child i :: a) b || containsListBfs cs (i + 1) a b
end

/-- Is the node at this position a `BlockStmt`? -/
def isBlockStmtAt (t : Node) (p : Pos) : Bool :=
  match nodeAt t p with
  | some (Node.blockStmt _) => true
  | _ => false

/-- `BlockStmt.isFinallyBlock()`.  Modelled from the spec: statement.ts is
not under src/; §3 says a block "may be marked as a 'finally' block", and
the mark designates the finally block of a try statement, so a block
carries it exactly when it sits in the `finallyBlock` slot of a
`TryStmt` — positionally, when the innermost step of its position is
`finallyB`. -/
def isFinallyBlockAt (t : Node) (p : Pos) : Bool :=
  match p with
  | Step.finallyB :: _ => isBlockStmtAt t p
  | _ => false

/-- `findCatchClause()` from node.ts: the catch clause this node should
throw to, found by walking ancestors; a finally block delegates to its
try statement, a try-statement parent answers with its own catch clause,
and catch clauses and finally blocks on the way up are skipped. -/
def findCatchClause (t : Node) : Pos → Option Pos
  | [] => none
  | s :: p =>
      if isFinallyBlockAt t (s :: p) then
        -- this node is itself a finally block: `parent.findCatchClause()`
        findCatchClause t p
      else
        match nodeAt t p with
        | some (Node.tryStmt _ cc _) =>
            -- `return scope.catchClause`
            match cc with
            | some _ => some (Step.catchB :: p)
            | none => none
        | some (Node.catchClause _ _) =>
            -- skip the try statement: `scope.parent.findCatchClause()`
            match p with
            | [] => none
            | _ :: q => findCatchClause t q
        | some (Node.blockStmt _) =>
            match p with
            | Step.finallyB :: q =>
                -- skip the finally block: `scope.parent.findCatchClause()`
                findCatchClause t q
            | [] => findCatchClause t []
            | s' :: q => findCatchClause t (s' :: q)
        | some (Node.other _) => findCatchClause t p
        | none => none
termination_by p => p.length
decreasing_by all_goals simp_arith

/-- `findParent(p => p.kind === "CatchClause")` from node.ts: the nearest
strict ancestor that is a catch clause. -/
def findParentCatchClause (t : Node) : Pos → Option Pos
  | [] => none
  | _ :: p =>
      match nodeAt t p with
      | some (Node.catchClause _ _) => some p
      | some _ => findParentCatchClause t p
      | none => none

/-- The `finallyBlock` of the try statement owning the catch clause at
`q` (the source's `surroundingCatch.parent.finallyBlock`), as a position;
`none` when the parent is not a try statement with a finally block. -/
def parentFinallySlot (t : Node) (q : Pos) : Option Pos :=
  match q with
  | [] => none
  | _ :: r =>
      match nodeAt t r with
      | some (Node.tryStmt _ _ (some _)) => some (Step.finallyB :: r)
      | _ => none

/-- The `tryBlock` of the try statement owning the catch clause at `q`
(the source's `catchClause.parent.tryBlock`), as a position. -/
def parentTryBlockSlot (t : Node) (q : Pos) : Option Pos :=
  match q with
  | [] => none
  | _ :: r =>
      match nodeAt t r with
      | some (Node.tryStmt _ _ _) => some (Step.tryB :: r)
      | _ => none

/-- `throw()` from node.ts: where an error raised at this node is
handled.  `catchClause` is the nominal handler (`findCatchClause`),
`surroundingCatch` the nearest enclosing catch clause; a finally block on
the surrounding catch's try statement intercepts when the nominal
handler's try-block contains the surrounding catch (or when there is no
nominal handler at all); otherwise the nominal handler (or nothing)
handles the error. -/
def throwTarget (t : Node) (pos : Pos) : Option Pos :=
  match findCatchClause t pos, findParentCatchClause t pos with
  | some h, some c =>
      match parentFinallySlot t c, parentTryBlockSlot t h with
      | some f, some tb =>
          if (match nodeAt t tb with
              | some n => containsDfs n tb c
              | none => false) then
            some f
          else
            some h
      | _, _ => some h
  | some h, none => some h
  | none, some c => parentFinallySlot t c
  | none, none => none

/-! Characterisation of the two `contains` traversals. -/

lemma containsListDfs_eq_any (cs : List Node) :
    ∀ (i : Nat) (a b : Pos),
      containsListDfs cs i a b =
        (listChildren i cs).any
          (fun sc => decide (sc.1 :: a = b) || containsDfs sc.2 (sc.1 :: a) b) := by
  induction cs with
  | nil => intro i a b; rfl
  | cons c cs ih =>
      intro i a b
      simp [containsListDfs, listChildren, List.any_cons, ih]

lemma containsDfs_eq_any (n : Node) (a b : Pos) :
    containsDfs n a b =
      (childrenWithSteps n).any
        (fun sc => decide (sc.1 :: a = b) || containsDfs sc.2 (sc.1 :: a) b) := by
  cases n with
  | tryStmt tb cc fb =>
      cases cc <;> cases fb <;>
        simp [containsDfs, containsOptDfs, childrenWithSteps, optChild,
          List.any_cons, List.any_append, Bool.or_assoc]
  | catchClause vd blk =>
      cases vd <;>
        simp [containsDfs, containsOptDfs, childrenWithSteps, optChild,
          List.any_cons, List.any_append, Bool.or_assoc]
  | blockStmt stmts =>
      simpa [containsDfs, childrenWithSteps] using containsListDfs_eq_any stmts 0 a b
  | other kids =>
      simpa [containsDfs, childrenWithSteps] using containsListDfs_eq_any kids 0 a b

lemma containsListBfs_eq_any (cs : List Node) :
    ∀ (i : Nat) (a b : Pos),
      containsListBfs cs i a b =
        (listChildren i cs).any (fun sc => containsBfs sc.2 (sc.1 :: a) b) := by
  induction cs with
  | nil => intro i a b; rfl
  | cons c cs ih =>
      intro i a b
      simp [containsListBfs, listChildren, List.any_cons, ih]

lemma containsBfs_eq_any (n : Node) (a b : Pos) :
    containsBfs n a b =
      ((childrenWithSteps n).any (fun sc => decide (sc.1 :: a = b)) ||
       (childrenWithSteps n).any (fun sc => containsBfs sc.2 (sc.1 :: a) b)) := by
  cases n with
  | tryStmt tb cc fb =>
      cases cc <;> cases fb <;>
        simp [containsBfs, containsOptBfs, childEqAny, childrenWithSteps, optChild,
          List.any_cons, List.any_append, Bool.or_assoc]
  | catchClause vd blk =>
      cases vd <;>
        simp [containsBfs, containsOptBfs, childEqAny, childrenWithSteps, optChild,
          List.any_cons, List.any_append, Bool.or_assoc]
  | blockStmt stmts =>
      simp only [containsBfs, childEqAny, childrenWithSteps]
      rw [containsListBfs_eq_any stmts 0 a b]
  | other kids =>
      simp only [containsBfs, childEqAny, childrenWithSteps]
      rw [containsListBfs_eq_any kids 0 a b]

lemma node_sizeOf_pos (n : Node) : 0 < sizeOf n := by
  cases n <;> simp_arith

lemma nodeAt_append (t : Node) (q p : Pos) :
    nodeAt t (q ++ p) = (nodeAt t p).bind (fun n => nodeAt n q) := by
  induction q with
  | nil =>
      cases h : nodeAt t p <;> simp [List.nil_append, h, nodeAt]
  | cons s q ih =>
      show (nodeAt t (q ++ p)).bind (fun n => childAt n s) = _
      rw [ih]
      cases nodeAt t p <;> simp [nodeAt]

lemma mem_listChildren_iff {cs : List Node} :
    ∀ {i : Nat} {s : Step} {c : Node},
      (s, c) ∈ listChildren i cs ↔ ∃ j, s = Step.child (i + j) ∧ cs.get? j = some c := by
  induction cs with
  | nil => intro i s c; simp [listChildren]
  | cons x xs ih =>
      intro i s c
      simp only [listChildren, List.mem_cons, ih]
      constructor
      · rintro (h1 | ⟨j, rfl, hj⟩)
        · cases h1
          exact ⟨0, by simp, rfl⟩
        · exact ⟨j + 1, by congr 1; omega, by simpa using hj⟩
      · rintro ⟨j, rfl, hj⟩
        cases j with
        | zero =>
            left
            simp at hj
            simp [hj]
        | succ j =>
            right
            refine ⟨j, by congr 1; omega, by simpa using hj⟩

lemma mem_childrenWithSteps_iff {n : Node} {s : Step} {c : Node} :
    (s, c) ∈ childrenWithSteps n ↔ childAt n s = some c := by
  cases n with
  | tryStmt tb cc fb =>
      cases cc <;> cases fb <;> cases s <;>
        simp [childrenWithSteps, optChild, childAt, List.mem_cons, List.mem_append,
          eq_comm]
  | catchClause vd blk =>
      cases vd <;> cases s <;>
        simp [childrenWithSteps, optChild, childAt, List.mem_cons, List.mem_append,
          eq_comm]
  | blockStmt stmts =>
      rw [show childrenWithSteps (Node.blockStmt stmts) = listChildren 0 stmts from rfl,
        mem_listChildren_iff]
      cases s <;> simp [childAt]
  | other kids =>
      rw [show childrenWithSteps (Node.other kids) = listChildren 0 kids from rfl,
        mem_listChildren_iff]
      cases s <;> simp [childAt]

lemma sizeOf_child_lt {n : Node} {s : Step} {c : Node}
    (h : (s, c) ∈ childrenWithSteps n) : sizeOf c < sizeOf n := by
  rw [mem_childrenWithSteps_iff] at h
  cases n with
  | tryStmt tb cc fb =>
      cases s <;> simp [childAt] at h
      · subst h; simp_arith
      · subst h; simp_arith
      · subst h; simp_arith
  | catchClause vd blk =>
      cases s <;> simp [childAt] at h
      · subst h; simp_arith
      · subst h; simp_arith
  | blockStmt stmts =>
      cases s <;> simp [childAt] at h
      have h2 := List.sizeOf_lt_of_mem (List.getElem?_mem h)
      simp; omega
  | other kids =>
      cases s <;> simp [childAt] at h
      have h2 := List.sizeOf_lt_of_mem (List.getElem?_mem h)
      simp; omega

lemma containsDfs_iff_aux :
    ∀ (k : Nat) (n : Node), sizeOf n ≤ k → ∀ (a b : Pos),
      (containsDfs n a b = true ↔
        ∃ q : Pos, q ≠ [] ∧ b = q ++ a ∧ (nodeAt n q).isSome = true) := by
  intro k
  induction k with
  | zero =>
      intro n hn
      exact absurd hn (by have := node_sizeOf_pos n; omega)
  | succ k ih =>
      intro n hn a b
      rw [containsDfs_eq_any, List.any_eq_true]
      constructor
      · rintro ⟨⟨s, c⟩, hmem, hsc⟩
        have hchild : childAt n s = some c := mem_childrenWithSteps_iff.mp hmem
        have hns : nodeAt n [s] = some c := by simp [nodeAt, hchild]
        rcases Bool.or_eq_true _ _ |>.mp hsc with heq | hrec
        · refine ⟨[s], by simp, (decide_eq_true_eq.mp heq).symm, ?_⟩
          simp [hns]
        · have hsz : sizeOf c ≤ k := by
            have := sizeOf_child_lt hmem; omega
          obtain ⟨q', hq', rfl, hsome⟩ := (ih c hsz (s :: a) b).mp hrec
          refine ⟨q' ++ [s], by simp, by simp, ?_⟩
          rw [nodeAt_append, hns]
          simpa using hsome
      · rintro ⟨q, hq, rfl, hsome⟩
        rcases q.eq_nil_or_concat with rfl | ⟨q', s, rfl⟩
        · exact absurd rfl hq
        · try simp only [List.concat_eq_append] at hq
          try simp only [List.concat_eq_append] at hsome
          rw [nodeAt_append] at hsome
          rcases hns : nodeAt n [s] with _ | c
          · rw [hns] at hsome; simp at hsome
          · rw [hns] at hsome
            simp at hsome
            have hchild : childAt n s = some c := by
              simpa [nodeAt] using hns
            refine ⟨(s, c), mem_childrenWithSteps_iff.mpr hchild, ?_⟩
            rcases q'.eq_nil_or_concat with rfl | hne
            · simp
            · have hq'ne : q' ≠ [] := by
                rcases hne with ⟨_, _, rfl⟩; simp
              have hrec : containsDfs c (s :: a) ((q' ++ [s]) ++ a) = true := by
                have hsz : sizeOf c ≤ k := by
                  have := sizeOf_child_lt (mem_childrenWithSteps_iff.mpr hchild)
                  omega
                refine (ih c hsz (s :: a) ((q' ++ [s]) ++ a)).mpr ⟨q', hq'ne, by simp, hsome⟩
              simp only [List.append_assoc, List.singleton_append] at hrec
              simp [hrec]

lemma containsBfs_iff_aux :
    ∀ (k : Nat) (n : Node), sizeOf n ≤ k → ∀ (a b : Pos),
      (containsBfs n a b = true ↔
        ∃ q : Pos, q ≠ [] ∧ b = q ++ a ∧ (nodeAt n q).isSome = true) := by
  intro k
  induction k with
  | zero =>
      intro n hn
      exact absurd hn (by have := node_sizeOf_pos n; omega)
  | succ k ih =>
      intro n hn a b
      rw [containsBfs_eq_any, Bool.or_eq_true, List.any_eq_true, List.any_eq_true]
      constructor
      · rintro (⟨⟨s, c⟩, hmem, hsc⟩ | ⟨⟨s, c⟩, hmem, hsc⟩)
        · have hchild : childAt n s = some c := mem_childrenWithSteps_iff.mp hmem
          refine ⟨[s], by simp, (decide_eq_true_eq.mp hsc).symm, ?_⟩
          simp [nodeAt, hchild]
        · have hchild : childAt n s = some c := mem_childrenWithSteps_iff.mp hmem
          have hns : nodeAt n [s] = some c := by simp [nodeAt, hchild]
          have hsz : sizeOf c ≤ k := by
            have := sizeOf_child_lt hmem; omega
          obtain ⟨q', hq', rfl, hsome⟩ := (ih c hsz (s :: a) b).mp hsc
          refine ⟨q' ++ [s], by simp, by simp, ?_⟩
          rw [nodeAt_append, hns]
          simpa using hsome
      · rintro ⟨q, hq, rfl, hsome⟩
        rcases q.eq_nil_or_concat with rfl | ⟨q', s, rfl⟩
        · exact absurd rfl hq
        · try simp only [List.concat_eq_append] at hq
          try simp only [List.concat_eq_append] at hsome
          rw [nodeAt_append] at hsome
          rcases hns : nodeAt n [s] with _ | c
          · rw [hns] at hsome; simp at hsome
          · rw [hns] at hsome
            simp at hsome
            have hchild : childAt n s = some c := by
              simpa [nodeAt] using hns
            rcases q'.eq_nil_or_concat with rfl | hne
            · exact Or.inl ⟨(s, c), mem_childrenWithSteps_iff.mpr hchild, by simp⟩
            · have hq'ne : q' ≠ [] := by
                rcases hne with ⟨_, _, rfl⟩; simp
              have hsz : sizeOf c ≤ k := by
                have := sizeOf_child_lt (mem_childrenWithSteps_iff.mpr hchild)
                omega
              have hrec : containsBfs c (s :: a) ((q' ++ [s]) ++ a) = true :=
                (ih c hsz (s :: a) ((q' ++ [s]) ++ a)).mpr ⟨q', hq'ne, by simp, hsome⟩
              refine Or.inr ⟨(s, c), mem_childrenWithSteps_iff.mpr hchild, ?_⟩
              simpa [List.concat_eq_append, List.append_assoc] using hrec

/-- `b` addresses a node of `t` lying strictly inside the subtree rooted
at the node at `a`: the "contains" relation between two real nodes of the
tree, stated structurally. -/
def strictlyInside (t : Node) (a b : Pos) : Prop :=
  a ≠ b ∧ a <:+ b ∧ (nodeAt t b).isSome = true

instance (t : Node) (a b : Pos) : Decidable (strictlyInside t a b) := by
  unfold strictlyInside; infer_instance

lemma containsDfs_iff_strictlyInside {t n : Node} {a : Pos}
    (hn : nodeAt t a = some n) (b : Pos) :
    (containsDfs n a b = true) ↔ strictlyInside t a b := by
  rw [containsDfs_iff_aux (sizeOf n) n le_rfl a b]
  constructor
  · rintro ⟨q, hq, rfl, hsome⟩
    refine ⟨?_, ⟨q, rfl⟩, ?_⟩
    · intro h
      have hlen := congrArg List.length h
      simp [List.length_append] at hlen
      exact hq hlen
    · rw [nodeAt_append, hn]
      simpa using hsome
  · rintro ⟨hne, ⟨q, rfl⟩, hsome⟩
    refine ⟨q, ?_, rfl, ?_⟩
    · rintro rfl
      exact hne (by simp)
    · rw [nodeAt_append, hn] at hsome
      simpa using hsome

/-- **C10.** The depth-first and breadth-first variants of
`contains(node, alg)` decide the same descendant relation: for every
receiver subtree `n` (at position `a`) and every target position `b`,
`contains(b, "dfs")` and `contains(b, "bfs")` agree. -/
theorem contains_dfs_eq_bfs (n : Node) (a b : Pos) :
    containsDfs n a b = containsBfs n a b := by
  have h1 := containsDfs_iff_aux (sizeOf n) n le_rfl a b
  have h2 := containsBfs_iff_aux (sizeOf n) n le_rfl a b
  by_cases h : ∃ q : Pos, q ≠ [] ∧ b = q ++ a ∧ (nodeAt n q).isSome = true
  · rw [h1.mpr h, h2.mpr h]
  · have d1 : containsDfs n a b = false :=
      Bool.not_eq_true _ |>.mp (fun hc => h (h1.mp hc))
    have d2 : containsBfs n a b = false :=
      Bool.not_eq_true _ |>.mp (fun hc => h (h2.mp hc))
    rw [d1, d2]

/-- `throw()` as claim C1 states it: when the node has a nominal catch
handler (`findCatchClause`) and also lies inside a surrounding catch
clause whose try statement has a finally block, and the nominal handler's
try statement's try-block contains that surrounding catch, `throw()`
returns the surrounding catch's finally block; when there is no nominal
handler but a surrounding finally exists, it returns that finally block;
otherwise it returns the nominal handler, or nothing when no handler
exists (the error is terminal). -/
def throwSpecified (t : Node) (pos : Pos) : Option Pos :=
  match findCatchClause t pos, findParentCatchClause t pos with
  | some h, some c =>
      match parentFinallySlot t c, parentTryBlockSlot t h with
      | some f, some tb => if strictlyInside t tb c then some f else some h
      | _, _ => some h
  | some h, none => some h
  | none, some c => parentFinallySlot t c
  | none, none => none

/-- **C1.** `throw()` implements exactly the specified error-interception
rule: the surrounding catch's finally block intercepts when the nominal
handler's try-block contains the surrounding catch (or when no nominal
handler exists at all); otherwise the nominal handler — or nothing —
receives the error. -/
theorem throwTarget_eq_specified (t : Node) (pos : Pos) :
    throwTarget t pos = throwSpecified t pos := by
  unfold throwTarget throwSpecified
  rcases hcc : findCatchClause t pos with _ | h <;>
    rcases hsc : findParentCatchClause t pos with _ | c
  · rfl
  · rfl
  · rfl
  · rcases hf : parentFinallySlot t c with _ | f
    · simp [hf]
    · rcases htb : parentTryBlockSlot t h with _ | tb
      · simp [hf, htb]
      · rcases hnat : nodeAt t tb with _ | n
        · have hni : ¬ strictlyInside t tb c := by
            rintro ⟨hne, ⟨q, rfl⟩, hsome⟩
            rw [nodeAt_append, hnat] at hsome
            simp at hsome
          simp [hf, htb, hnat, hni]
        · by_cases hs : strictlyInside t tb c
          · simp [hf, htb, hnat,
              (containsDfs_iff_strictlyInside hnat c).mpr hs, hs]
          · have hfalse : containsDfs n tb c = false :=
              Bool.not_eq_true _ |>.mp
                (fun hcd => hs ((containsDfs_iff_strictlyInside hnat c).mp hcd))
            simp [hf, htb, hnat, hfalse, hs]

/-! ## Expression flattener / constant folder (the event-bridge utils
module, src/unnamed/part_001)

Expression node shapes are taken from expression.ts (not under src/) as
used by the flattener; external references (`ReferenceExpr`) carry the
value their `ref()` thunk resolves to. -/

/-- A JavaScript runtime value as constant folding sees it: primitive
constants and objects (the values an external reference's `ref()` can
resolve to; constructs with constant properties are objects). -/
inductive ConstVal where
  | str (s : String)
  | num (n : Int)
  | bool (b : Bool)
  | null
  | undef
  | obj (fields : List (String × ConstVal))

/-- JavaScript truthiness of a constant value (`NaN` is not modelled:
the flattener performs no arithmetic beyond unary negation). -/
def ConstVal.truthy : ConstVal → Bool
  | .str s => s ≠ ""
  | .num n => n ≠ 0
  | .bool b => b
  | .null => false
  | .undef => false
  | .obj _ => true

/-- The expression nodes handled by the flattener (expression.ts).
JavaScript numbers only ever undergo unary negation here, so they are
embedded as integers. -/
inductive Expr where
  | identifier (name : String)
  | stringLit (value : String)
  | numberLit (value : Int)
  | boolLit (value : Bool)
  | nullLit
  | undefinedLit
  | unaryExpr (op : String) (expr : Expr)
  | binaryExpr (left : Expr) (op : String) (right : Expr)
  | propAccess (expr : Expr) (name : String) (type : Option String)
  | elementAccess (expr : Expr) (element : Expr) (type : Option String)
  | arrayLit (items : List Expr)
  | objectLit (properties : List Expr)
  | propAssign (name : Expr) (expr : Expr)
  | spreadAssign (expr : Expr)
  | spreadElement (expr : Expr)
  | computedPropertyName (expr : Expr)
  | templateExpr (exprs : List Expr)
  | callExpr (expr : Expr) (args : List Expr)
  | referenceExpr (value : ConstVal)

/-- A property key recovered from an access: a string or a number. -/
inductive PropKey where
  | str (s : String)
  | num (n : Int)
  deriving DecidableEq

/-- `assertNumber` (assert.ts, not under src/).  Modelled from the spec:
a narrowing assertion that returns the number or raises. -/
def assertNumber (v : ConstVal) : Except String Int :=
  match v with
  | ConstVal.num n => Except.ok n
  | _ => Except.error ("Expected a number")

/-- The JavaScript value of `c?.constant`: `undefined` when no constant
wrapper is present. -/
def constOrUndef (c : Option ConstVal) : ConstVal :=
  c.getD ConstVal.undef

/-- `evalToConstant(expr)`: a present/absent constant wrapper for
literals, unary negation of a constant number, property access into a
truthy constant object (JavaScript's `in` raises a `TypeError` on a
truthy primitive), and external references.  `none` means "not a
constant". -/
def evalToConstant : Expr → Except String (Option ConstVal)
  | Expr.stringLit s => .ok (some (.str s))
  | Expr.numberLit n => .ok (some (.num n))
  | Expr.boolLit b => .ok (some (.bool b))
  | Expr.nullLit => .ok (some .null)
  | Expr.undefinedLit => .ok (some .undef)
  | Expr.unaryExpr op e =>
      if op = "-" then do
        let c ← evalToConstant e
        let n ← assertNumber (constOrUndef c)
        .ok (some (.num (-n)))
      else
        .ok none
  | Expr.propAccess e name _ => do
      let c ← evalToConstant e
      let obj := constOrUndef c
      -- `if (obj && expr.name in obj)`
      if obj.truthy then
        match obj with
        | ConstVal.obj fields =>
            match fields.lookup name with
            | some v => .ok (some v)
            | none => .ok none
        | _ => .error ("TypeError: cannot use 'in' operator on a primitive")
      else
        .ok none
  | Expr.referenceExpr v => .ok (some v)
  | _ => .ok none

/-- `getPropertyAccessKey(expr)`: the name of a property access, or the
constant value of an element access's index, which must be a string or a
number. -/
def getPropertyAccessKey : Expr → Except String PropKey
  | Expr.propAccess _ name _ => .ok (.str name)
  | Expr.elementAccess _ element _ => do
      let c ← evalToConstant element
      match constOrUndef c with
      | ConstVal.str s => .ok (.str s)
      | ConstVal.num n => .ok (.num n)
      | _ => .error ("Property key much be a number or a string")
  | _ => .error ("Property key much be a number or a string")

/-- `ReferencePath`: the root identity and the ordered access keys. -/
structure ReferencePath where
  identity : String
  reference : List PropKey
  deriving DecidableEq

/-- `getReferencePath(expression)`: the ordered property keys accessed
off a root identifier, or `none` when the root is not a simple
identifier chain. -/
def getReferencePath : Expr → Except String (Option ReferencePath)
  | Expr.identifier name => .ok (some ⟨name, []⟩)
  | Expr.propAccess obj nm ty => do
      let key ← getPropertyAccessKey (Expr.propAccess obj nm ty)
      let parent ← getReferencePath obj
      match parent with
      | some p => .ok (some ⟨p.identity, p.reference ++ [key]⟩)
      | none => .ok none
  | Expr.elementAccess obj el ty => do
      let key ← getPropertyAccessKey (Expr.elementAccess obj el ty)
      let parent ← getReferencePath obj
      match parent with
      | some p => .ok (some ⟨p.identity, p.reference ++ [key]⟩)
      | none => .ok none
  | _ => .ok none

/-- `EventScope`: name → bound expression.  The outer `Option` is the
`name in scope` membership test, the inner one the possibly-`undefined`
stored binding. -/
abbrev EventScope := String → Option (Option Expr)

/-- The empty scope. -/
def emptyScope : EventScope := fun _ => none

/-- `isPropAssignExpr` as a Boolean. -/
def isPropAssignB : Expr → Bool
  | Expr.propAssign _ _ => true
  | _ => false

/-- `isIdentifier` as a Boolean. -/
def isIdentifierB : Expr → Bool
  | Expr.identifier _ => true
  | _ => false

/-- `assertNodeKind<StringLiteralExpr>` (assert.ts, not under src/).
Modelled from the spec: narrows a node to the expected kind or raises a
`TypeMismatch` error. -/
def assertStringLit : Expr → Except String Expr
  | e@(Expr.stringLit _) => .ok e
  | _ => .error ("TypeMismatch: expected StringLiteralExpr")

/-- The `find` over an object literal's properties used by property
folding: the first property assignment whose identifier or
string-literal name equals `key`. -/
def findProperty (props : List Expr) (key : String) : Option Expr :=
  (props.filter isPropAssignB).find? (fun p =>
    match p with
    | Expr.propAssign (Expr.identifier n) _ => n = key
    | Expr.propAssign (Expr.stringLit v) _ => v = key
    | _ => false)

/-- Fold a resolved access `parent[key]` (the tail of the
`isPropAccessExpr(expr) || isElementAccessExpr(expr)` branch of
`flattenExpression`): object literals resolve string keys to the matching
member, array literals resolve numeric keys to the matching item, and any
other parent rebuilds an access node.  (On an out-of-range numeric index
the source returns JavaScript `undefined` despite its `Expr` return type;
that type-violating escape is embedded as an error.) -/
def flattenAccess (parent : Expr) (key : PropKey) (ty : Option String) :
    Except String Expr :=
  match parent with
  | Expr.objectLit props =>
      match key with
      | PropKey.str s =>
          match findProperty props s with
          | some (Expr.propAssign _ v) => .ok v
          | _ => .error ("Cannot find property " ++ s ++ " in Object with constant keys")
      | PropKey.num _ => .error ("Object access must be a string.")
  | Expr.arrayLit items =>
      match key with
      | PropKey.num n =>
          match if 0 ≤ n then items.get? n.toNat else none with
          | some e => .ok e
          | none => .error ("undefined: array index out of range")
      | PropKey.str _ => .error ("Array access must be a number.")
  | _ =>
      match key with
      | PropKey.str s => .ok (Expr.propAccess parent s ty)
      | PropKey.num n => .ok (Expr.elementAccess parent (Expr.numberLit n) ty)

/-- Element conversion of `Array.prototype.join("")` as used by the
template-collapse branch: `null` and `undefined` become the empty
string, other values their JavaScript string conversion. -/
def joinToString : ConstVal → String
  | .str s => s
  | .num n => Int.repr n
  | .bool b => if b then "true" else "false"
  | .null => ""
  | .undef => ""
  | .obj _ => "[object Object]"

/-- The `map` of `evalToConstant` over the flattened segments of a
template (`flattenedExpressions.map(evalToConstant)` in the source; a
raised error aborts the whole map). -/
def mapEvalToConstant : List Expr → Except String (List (Option ConstVal))
  | [] => .ok []
  | e :: es => do
      let c ← evalToConstant e
      let cs ← mapEvalToConstant es
      .ok (c :: cs)

mutual
/-- `flattenExpression(expr, scope)`: substitute scope-bound identifiers,
resolve accesses into known object/array literals, flatten spreads of
constant collections, and collapse all-constant templates into a string
literal. -/
def flattenExpression (expr : Expr) (scope : EventScope) : Except String Expr :=
  match expr with
  | Expr.unaryExpr op e => do
      let fe ← flattenExpression e scope
      .ok (Expr.unaryExpr op fe)
  | Expr.identifier name =>
      -- if this variable is in scope, return the expression it points to
      match scope name with
      | some ref =>
          match ref with
          | some r => .ok r
          | none => .error ("Reference " ++ name ++ " is not yet instantiated.")
      | none => .ok (Expr.identifier name)
  | Expr.propAccess obj nm ty => do
      let key ← getPropertyAccessKeyFlatten (Expr.propAccess obj nm ty) scope
      let parent ← flattenExpression obj scope
      flattenAccess parent key ty
  | Expr.elementAccess obj el ty => do
      let key ← getPropertyAccessKeyFlatten (Expr.elementAccess obj el ty) scope
      let parent ← flattenExpression obj scope
      flattenAccess parent key ty
  | Expr.computedPropertyName e => flattenExpression e scope
  | Expr.arrayLit items => do
      let newItems ← flattenArrayItems items scope
      .ok (Expr.arrayLit newItems)
  | Expr.binaryExpr l op r => do
      let fl ← flattenExpression l scope
      let fr ← flattenExpression r scope
      .ok (Expr.binaryExpr fl op fr)
  | Expr.objectLit props => do
      let newProps ← flattenObjectProps props scope
      .ok (Expr.objectLit newProps)
  | Expr.templateExpr parts => do
      let flattenedExpressions ← flattenSegments parts scope
      let flattenedConstants ← mapEvalToConstant flattenedExpressions
      -- when all of the values are constants, turn them into a string constant
      if flattenedConstants.all (fun c => c.isSome) then
        .ok (Expr.stringLit
          (String.join (flattenedConstants.map (fun c => joinToString (constOrUndef c)))))
      else do
        let again ← flattenSegments parts scope
        .ok (Expr.templateExpr again)
  | e => .ok e
termination_by (sizeOf expr, 1)
decreasing_by all_goals (simp_wf; first
  | (apply Prod.Lex.right; omega)
  | (apply Prod.Lex.left; simp_arith))

/-- The `reduce` of the array-literal branch of `flattenExpression`, in
processing order: an ordinary item contributes itself flattened, a spread
whose flattened target is an array literal contributes that literal's
items, and any other spread raises `UnsupportedSpread`. -/
def flattenArrayItems (items : List Expr) (scope : EventScope) :
    Except String (List Expr) :=
  match items with
  | [] => .ok []
  | x :: xs =>
      match x with
      | Expr.spreadElement e2 => do
          let ref ← flattenExpression e2 scope
          match ref with
          | Expr.arrayLit more => do
              let rest ← flattenArrayItems xs scope
              .ok (more ++ rest)
          | _ => .error ("Event Bridge input transforms do not support array spreading non-constant arrays.")
      | e2 => do
          let fe ← flattenExpression e2 scope
          let rest ← flattenArrayItems xs scope
          .ok (fe :: rest)
termination_by (sizeOf items, 0)
decreasing_by all_goals (simp_wf; apply Prod.Lex.left; simp_arith)

/-- The `reduce` of the object-literal branch of `flattenExpression`, in
processing order: a property assignment keeps an identifier name (any
other name must flatten to a string literal) and flattens its value; a
spread whose flattened target is an object literal contributes that
literal's property assignments; any other spread raises
`UnsupportedSpread`.  (Object literals only carry property assignments
and spreads.) -/
def flattenObjectProps (props : List Expr) (scope : EventScope) :
    Except String (List Expr) :=
  match props with
  | [] => .ok []
  | p :: ps =>
      match p with
      | Expr.propAssign nm e2 => do
          let nm2 ←
            if isIdentifierB nm then Except.ok nm
            else do
              let fn ← flattenExpression nm scope
              assertStringLit fn
          let fe ← flattenExpression e2 scope
          let rest ← flattenObjectProps ps scope
          .ok (Expr.propAssign nm2 fe :: rest)
      | Expr.spreadAssign e2 => do
          let flattened ← flattenExpression e2 scope
          match flattened with
          | Expr.objectLit ps2 => do
              let rest ← flattenObjectProps ps scope
              .ok (ps2.filter isPropAssignB ++ rest)
          | _ => .error ("Event Bridge input transforms do not support object spreading non-constant objects.")
      | _ => .error ("Event Bridge input transforms do not support object spreading non-constant objects.")
termination_by (sizeOf props, 0)
decreasing_by all_goals (simp_wf; apply Prod.Lex.left; simp_arith)

/-- The `map` over a template's segments: flatten each segment in
order. -/
def flattenSegments (parts : List Expr) (scope : EventScope) :
    Except String (List Expr) :=
  match parts with
  | [] => .ok []
  | x :: xs => do
      let fe ← flattenExpression x scope
      let rest ← flattenSegments xs scope
      .ok (fe :: rest)
termination_by (sizeOf parts, 0)
decreasing_by all_goals (simp_wf; apply Prod.Lex.left; simp_arith)

/-- `getPropertyAccessKeyFlatten(expr, scope)`: for an element access,
flatten the index expression first (the source builds a fresh
`ElementAccessExpr` around the original object and the flattened index),
then read the key. -/
def getPropertyAccessKeyFlatten (e : Expr) (scope : EventScope) :
    Except String PropKey :=
  match e with
  | Expr.elementAccess obj el ty => do
      let fe ← flattenExpression el scope
      getPropertyAccessKey (Expr.elementAccess obj fe ty)
  | e => getPropertyAccessKey e
termination_by (sizeOf e, 0)
decreasing_by all_goals (simp_wf; apply Prod.Lex.left; simp_arith)
end

/-- **C8.** `getReferencePath` on the chain `a.b[0].c` returns identity
`a` with path `["b", 0, "c"]`; on a bare identifier `a` it returns
identity `a` with the empty path; on a chain rooted in a call expression
it returns none. -/
theorem getReferencePath_chains (a b c n : String) (f : Expr)
    (args : List Expr) (ty ty2 ty3 ty4 : Option String) :
    getReferencePath
        (Expr.propAccess
          (Expr.elementAccess (Expr.propAccess (Expr.identifier a) b ty)
            (Expr.numberLit 0) ty2) c ty3) =
      Except.ok (some ⟨a, [PropKey.str b, PropKey.num 0, PropKey.str c]⟩) ∧
    getReferencePath (Expr.identifier a) = Except.ok (some ⟨a, []⟩) ∧
    getReferencePath (Expr.propAccess (Expr.callExpr f args) n ty4) =
      Except.ok none :=
  ⟨rfl, rfl, rfl⟩

/-- **C6 (counterexample).** In the template `` `${-"a"}` `` the single
segment does not flatten to a constant (its flattened form is the unary
expression itself, whose constant evaluation raises), yet the result of
flattening the template is not a template expression: the whole
flattening aborts with the raised error. -/
theorem flatten_template_error :
    flattenExpression
        (Expr.templateExpr [Expr.unaryExpr "-" (Expr.stringLit "a")])
        emptyScope =
      Except.error ("Expected a number") ∧
    flattenExpression (Expr.unaryExpr "-" (Expr.stringLit "a")) emptyScope =
      Except.ok (Expr.unaryExpr "-" (Expr.stringLit "a")) ∧
    evalToConstant (Expr.unaryExpr "-" (Expr.stringLit "a")) =
      Except.error ("Expected a number") := by
  refine ⟨?_, ?_, rfl⟩
  · simp [flattenExpression, flattenSegments, mapEvalToConstant, evalToConstant,
      assertNumber, constOrUndef, bind, Except.bind, pure, Except.pure]
  · simp [flattenExpression, bind, Except.bind, pure, Except.pure]

/-- **C6 (amended).** For a template whose segments all flatten
successfully and whose flattened segments all evaluate without raising:
when every segment evaluates to a constant, the template collapses to a
single string literal concatenating the constants under JavaScript
`join("")` semantics; when some segment is not a constant, the result
remains a template expression over the flattened segments.  (A segment
whose constant evaluation raises — e.g. unary minus of a non-number —
instead aborts flattening with that error.) -/
theorem flatten_template_collapse (parts : List Expr) (scope : EventScope)
    (fs : List Expr) (cs : List (Option ConstVal))
    (hf : flattenSegments parts scope = Except.ok fs)
    (hc : mapEvalToConstant fs = Except.ok cs) :
    ((∀ c ∈ cs, c.isSome = true) →
      flattenExpression (Expr.templateExpr parts) scope =
        Except.ok (Expr.stringLit
          (String.join (cs.map (fun c => joinToString (constOrUndef c)))))) ∧
    ((∃ c ∈ cs, c = none) →
      flattenExpression (Expr.templateExpr parts) scope =
        Except.ok (Expr.templateExpr fs)) := by
  constructor
  · intro h
    have hall : cs.all (fun c => c.isSome) = true := List.all_eq_true.mpr h
    simp [flattenExpression, hf, hc, hall, bind, Except.bind, constOrUndef]
  · rintro ⟨c0, hm, rfl⟩
    have hall : cs.all (fun c => c.isSome) = false := by
      rw [Bool.eq_false_iff, Ne, List.all_eq_true]
      intro hallc
      simpa using hallc none hm
    simp [flattenExpression, hf, hc, hall, bind, Except.bind]

/-- Witness for `flatten_template_collapse` on the template
`` `a${1}` ``, which collapses to the string literal `"a1"`. -/
theorem flatten_template_collapse_witness :
    flattenSegments [Expr.stringLit "a", Expr.numberLit 1] emptyScope =
      Except.ok [Expr.stringLit "a", Expr.numberLit 1] ∧
    (mapEvalToConstant [Expr.stringLit "a", Expr.numberLit 1] =
      Except.ok [some (ConstVal.str "a"), some (ConstVal.num 1)]) ∧
    flattenExpression
        (Expr.templateExpr [Expr.stringLit "a", Expr.numberLit 1]) emptyScope =
      Except.ok (Expr.stringLit "a1") := by
  have h1 : flattenSegments [Expr.stringLit "a", Expr.numberLit 1] emptyScope =
      Except.ok [Expr.stringLit "a", Expr.numberLit 1] := by
    simp [flattenSegments, flattenExpression, bind, Except.bind, pure, Except.pure]
  have h2 : mapEvalToConstant [Expr.stringLit "a", Expr.numberLit 1] =
      Except.ok [some (ConstVal.str "a"), some (ConstVal.num 1)] := rfl
  refine ⟨h1, h2, ?_⟩
  have h3 := (flatten_template_collapse
      [Expr.stringLit "a", Expr.numberLit 1] emptyScope
      [Expr.stringLit "a", Expr.numberLit 1]
      [some (ConstVal.str "a"), some (ConstVal.num 1)] h1 h2).1
    (by
      intro c hcm
      simp at hcm
      rcases hcm with rfl | rfl <;> rfl)
  simpa [joinToString, constOrUndef, String.join] using h3

/-! C5: idempotence of `flattenExpression` on fully-constant input. -/

/-- `isStringLiteralExpr` as a Boolean. -/
def isStringLitB : Expr → Bool
  | Expr.stringLit _ => true
  | _ => false

mutual
/-- Fully-constant input expressions (claim C5): literal leaves, unary
negation of a numeric literal, other unary operators over fully constant
operands, array literals of fully constant items (or spreads of fully
constant array literals), object literals of fully constant properties,
and templates of fully constant segments. -/
inductive FullyConstant : Expr → Prop where
  | str (s : String) : FullyConstant (Expr.stringLit s)
  | num (n : Int) : FullyConstant (Expr.numberLit n)
  | bool (b : Bool) : FullyConstant (Expr.boolLit b)
  | null : FullyConstant Expr.nullLit
  | undef : FullyConstant Expr.undefinedLit
  | negNum (n : Int) : FullyConstant (Expr.unaryExpr "-" (Expr.numberLit n))
  | unary (op : String) (e : Expr) (hop : op ≠ "-") (h : FullyConstant e) :
      FullyConstant (Expr.unaryExpr op e)
  | arr (items : List Expr) (h : ∀ x ∈ items, FCItem x) :
      FullyConstant (Expr.arrayLit items)
  | obj (props : List Expr) (h : ∀ p ∈ props, FCProp p) :
      FullyConstant (Expr.objectLit props)
  | tmpl (parts : List Expr) (h : ∀ e ∈ parts, FullyConstant e) :
      FullyConstant (Expr.templateExpr parts)

/-- An array-literal item of a fully-constant array: a fully constant
expression, or a spread of a fully constant array literal. -/
inductive FCItem : Expr → Prop where
  | plain {e : Expr} (h : FullyConstant e) : FCItem e
  | spread {sub : List Expr} (h : FullyConstant (Expr.arrayLit sub)) :
      FCItem (Expr.spreadElement (Expr.arrayLit sub))

/-- An object-literal property of a fully-constant object: a property
assignment with an identifier or string-literal name and fully constant
value, or a spread of a fully constant object literal. -/
inductive FCProp : Expr → Prop where
  | assign {nm v : Expr}
      (hnm : isIdentifierB nm = true ∨ isStringLitB nm = true)
      (h : FullyConstant v) : FCProp (Expr.propAssign nm v)
  | spread {sub : List Expr} (h : FullyConstant (Expr.objectLit sub)) :
      FCProp (Expr.spreadAssign (Expr.objectLit sub))
end

mutual
/-- Expressions on which `flattenExpression` is the identity and whose
constant evaluation never raises: the closure of `flattenExpression`'s
image on fully-constant input. -/
inductive RFlat : Expr → Prop where
  | str (s : String) : RFlat (Expr.stringLit s)
  | num (n : Int) : RFlat (Expr.numberLit n)
  | bool (b : Bool) : RFlat (Expr.boolLit b)
  | null : RFlat Expr.nullLit
  | undef : RFlat Expr.undefinedLit
  | negNum (n : Int) : RFlat (Expr.unaryExpr "-" (Expr.numberLit n))
  | unary (op : String) (e : Expr) (hop : op ≠ "-") (h : RFlat e) :
      RFlat (Expr.unaryExpr op e)
  | arr (items : List Expr) (h : ∀ e ∈ items, RFlat e) :
      RFlat (Expr.arrayLit items)
  | obj (props : List Expr) (h : ∀ p ∈ props, RProp p) :
      RFlat (Expr.objectLit props)
  | tmpl (parts : List Expr) (h : ∀ e ∈ parts, RFlat e)
      (hnc : ∃ e ∈ parts, evalToConstant e = Except.ok none) :
      RFlat (Expr.templateExpr parts)

/-- A property of a flatten-stable object literal: a property assignment
with an identifier or string-literal name and a flatten-stable value. -/
inductive RProp : Expr → Prop where
  | assign {nm v : Expr}
      (hnm : isIdentifierB nm = true ∨ isStringLitB nm = true)
      (h : RFlat v) : RProp (Expr.propAssign nm v)
end

lemma expr_sizeOf_pos (e : Expr) : 0 < sizeOf e := by
  cases e <;> simp_arith

lemma rflat_not_spread {e : Expr} (h : RFlat e) :
    ∀ y, e ≠ Expr.spreadElement y := by
  intro y heq
  subst heq
  cases h

lemma rflat_arr_inv {items : List Expr} (h : RFlat (Expr.arrayLit items)) :
    ∀ e ∈ items, RFlat e := by
  cases h with
  | arr _ h => exact h

lemma rflat_obj_inv {props : List Expr} (h : RFlat (Expr.objectLit props)) :
    ∀ p ∈ props, ∃ nm v,
      (isIdentifierB nm = true ∨ isStringLitB nm = true) ∧
      p = Expr.propAssign nm v ∧ RFlat v := by
  cases h with
  | obj _ h =>
      intro p hp
      cases h p hp with
      | @assign nm v hnm hv => exact ⟨nm, v, hnm, rfl, hv⟩

/-- Constant evaluation completes (never raises) on flatten-stable
expressions. -/
lemma evalToConstant_of_rflat {e : Expr} (h : RFlat e) :
    ∃ c, evalToConstant e = Except.ok c := by
  cases h with
  | str s => exact ⟨_, rfl⟩
  | num n => exact ⟨_, rfl⟩
  | bool b => exact ⟨_, rfl⟩
  | null => exact ⟨_, rfl⟩
  | undef => exact ⟨_, rfl⟩
  | negNum n => exact ⟨_, rfl⟩
  | unary op e hop h =>
      refine ⟨none, ?_⟩
      simp [evalToConstant, hop]
  | arr items h => exact ⟨_, rfl⟩
  | obj props h => exact ⟨_, rfl⟩
  | tmpl parts h hnc => exact ⟨_, rfl⟩

lemma mapM_eval_forall₂ : ∀ (l : List Expr),
    (∀ e ∈ l, ∃ c, evalToConstant e = Except.ok c) →
    ∃ cs, mapEvalToConstant l = Except.ok cs ∧
      List.Forall₂ (fun e c => evalToConstant e = Except.ok c) l cs := by
  intro l
  induction l with
  | nil => exact fun _ => ⟨[], rfl, List.Forall₂.nil⟩
  | cons x xs ih =>
      intro h
      obtain ⟨c, hc⟩ := h x (by simp)
      obtain ⟨cs, hcs, hall⟩ := ih (fun e he => h e (by simp [he]))
      refine ⟨c :: cs, ?_, List.Forall₂.cons hc hall⟩
      simp [mapEvalToConstant, hc, hcs, bind, Except.bind, pure, Except.pure]

lemma forall₂_mem_right {R : Expr → Option ConstVal → Prop} :
    ∀ {l : List Expr} {cs : List (Option ConstVal)}, List.Forall₂ R l cs →
      ∀ {c}, c ∈ cs → ∃ e ∈ l, R e c := by
  intro l cs h
  induction h with
  | nil => intro c hc; simp at hc
  | @cons x c' xs cs' hx _ ih =>
      intro c hc
      rcases List.mem_cons.mp hc with rfl | hmem
      · exact ⟨x, by simp, hx⟩
      · obtain ⟨e, he, hR⟩ := ih hmem
        exact ⟨e, by simp [he], hR⟩

lemma flattenSegments_id (scope : EventScope) : ∀ (l : List Expr),
    (∀ e ∈ l, flattenExpression e scope = Except.ok e) →
    flattenSegments l scope = Except.ok l := by
  intro l
  induction l with
  | nil => intro _; simp [flattenSegments]
  | cons x xs ih =>
      intro h
      have hx := h x (by simp)
      have hxs := ih (fun e he => h e (by simp [he]))
      simp [flattenSegments, hx, hxs, bind, Except.bind, pure, Except.pure]

lemma flattenSegments_exists (scope : EventScope) : ∀ (l : List Expr),
    (∀ e ∈ l, ∃ r, flattenExpression e scope = Except.ok r ∧ RFlat r) →
    ∃ rs, flattenSegments l scope = Except.ok rs ∧ ∀ r ∈ rs, RFlat r := by
  intro l
  induction l with
  | nil => exact fun _ => ⟨[], by simp [flattenSegments], by simp⟩
  | cons x xs ih =>
      intro h
      obtain ⟨r, hr, hR⟩ := h x (by simp)
      obtain ⟨rs, hrs, hRs⟩ := ih (fun e he => h e (by simp [he]))
      refine ⟨r :: rs, ?_, ?_⟩
      · simp [flattenSegments, hr, hrs, bind, Except.bind, pure, Except.pure]
      · intro y hy
        rcases List.mem_cons.mp hy with rfl | hy2
        · exact hR
        · exact hRs y hy2

lemma flattenArrayItems_cons_nonspread (x : Expr)
    (hs : ∀ y, x ≠ Expr.spreadElement y) (xs : List Expr)
    (scope : EventScope) :
    flattenArrayItems (x :: xs) scope =
      (flattenExpression x scope).bind (fun fe =>
        (flattenArrayItems xs scope).bind (fun rest =>
          Except.ok (fe :: rest))) := by
  cases x <;>
    first
      | exact absurd rfl (hs _)
      | simp [flattenArrayItems, bind, Except.bind, pure, Except.pure]

lemma flattenArrayItems_id (scope : EventScope) : ∀ (items : List Expr),
    (∀ e ∈ items, (∀ y, e ≠ Expr.spreadElement y) ∧
      flattenExpression e scope = Except.ok e) →
    flattenArrayItems items scope = Except.ok items := by
  intro items
  induction items with
  | nil => intro _; simp [flattenArrayItems]
  | cons x xs ih =>
      intro h
      obtain ⟨hns, hx⟩ := h x (by simp)
      have hxs := ih (fun e he => h e (by simp [he]))
      rw [flattenArrayItems_cons_nonspread x hns xs scope]
      simp [hx, hxs, bind, Except.bind, pure, Except.pure]

lemma flattenObjectProps_id (scope : EventScope) : ∀ (props : List Expr),
    (∀ p ∈ props, ∃ nm v,
      (isIdentifierB nm = true ∨ isStringLitB nm = true) ∧
      p = Expr.propAssign nm v ∧ flattenExpression v scope = Except.ok v) →
    flattenObjectProps props scope = Except.ok props := by
  intro props
  induction props with
  | nil => intro _; simp [flattenObjectProps]
  | cons p ps ih =>
      intro h
      obtain ⟨nm, v, hnm, rfl, hv⟩ := h p (by simp)
      have hps := ih (fun q hq => h q (by simp [hq]))
      rcases hnm with hid | hstr
      · simp [flattenObjectProps, hid, hv, hps, bind, Except.bind, pure,
          Except.pure]
      · cases nm <;> simp [isStringLitB] at hstr
        simp [flattenObjectProps, isIdentifierB, flattenExpression,
          assertStringLit, hv, hps, bind, Except.bind, pure, Except.pure]

lemma isStringLitB_eq {e : Expr} (h : isStringLitB e = true) :
    ∃ s, e = Expr.stringLit s := by
  cases e <;> simp [isStringLitB] at h
  exact ⟨_, rfl⟩

lemma fc_not_spread {e : Expr} (h : FullyConstant e) :
    ∀ y, e ≠ Expr.spreadElement y := by
  intro y heq
  subst heq
  cases h

lemma rprop_isPropAssign {q : Expr} (h : RProp q) : isPropAssignB q = true := by
  cases h
  simp [isPropAssignB]

lemma rflat_objP_inv {props : List Expr} (h : RFlat (Expr.objectLit props)) :
    ∀ q ∈ props, RProp q := by
  cases h with
  | obj _ h => exact h

lemma forall₂_mem_left {R : Expr → Option ConstVal → Prop} :
    ∀ {l : List Expr} {cs : List (Option ConstVal)}, List.Forall₂ R l cs →
      ∀ {e}, e ∈ l → ∃ c ∈ cs, R e c := by
  intro l cs h
  induction h with
  | nil => intro e he; simp at he
  | @cons x c' xs cs' hx _ ih =>
      intro e he
      rcases List.mem_cons.mp he with rfl | hmem
      · exact ⟨c', by simp, hx⟩
      · obtain ⟨c, hc, hR⟩ := ih hmem
        exact ⟨c, by simp [hc], hR⟩

lemma flattenArrayItems_exists (scope : EventScope) : ∀ (items : List Expr),
    (∀ x ∈ items,
      ((∀ y, x ≠ Expr.spreadElement y) ∧
        ∃ r, flattenExpression x scope = Except.ok r ∧ RFlat r) ∨
      (∃ sub more, x = Expr.spreadElement (Expr.arrayLit sub) ∧
        flattenExpression (Expr.arrayLit sub) scope =
          Except.ok (Expr.arrayLit more) ∧ ∀ y ∈ more, RFlat y)) →
    ∃ rs, flattenArrayItems items scope = Except.ok rs ∧ ∀ r ∈ rs, RFlat r := by
  intro items
  induction items with
  | nil => exact fun _ => ⟨[], by simp [flattenArrayItems], by simp⟩
  | cons x xs ih =>
      intro h
      obtain ⟨rs, hrs, hRs⟩ := ih (fun y hy => h y (by simp [hy]))
      rcases h x (by simp) with ⟨hns, r, hr, hR⟩ | ⟨sub, more, rfl, hflat, hmore⟩
      · refine ⟨r :: rs, ?_, ?_⟩
        · rw [flattenArrayItems_cons_nonspread x hns xs scope]
          simp [hr, hrs, bind, Except.bind, pure, Except.pure]
        · intro y hy
          rcases List.mem_cons.mp hy with rfl | hy2
          · exact hR
          · exact hRs y hy2
      · refine ⟨more ++ rs, ?_, ?_⟩
        · simp [flattenArrayItems, hflat, hrs, bind, Except.bind, pure, Except.pure]
        · intro y hy
          rcases List.mem_append.mp hy with hy1 | hy2
          · exact hmore y hy1
          · exact hRs y hy2

lemma flattenObjectProps_exists (scope : EventScope) : ∀ (props : List Expr),
    (∀ p ∈ props,
      (∃ nm v r, (isIdentifierB nm = true ∨ isStringLitB nm = true) ∧
        p = Expr.propAssign nm v ∧
        flattenExpression v scope = Except.ok r ∧ RFlat r) ∨
      (∃ sub more, p = Expr.spreadAssign (Expr.objectLit sub) ∧
        flattenExpression (Expr.objectLit sub) scope =
          Except.ok (Expr.objectLit more) ∧ ∀ q ∈ more, RProp q)) →
    ∃ rs, flattenObjectProps props scope = Except.ok rs ∧ ∀ q ∈ rs, RProp q := by
  intro props
  induction props with
  | nil => exact fun _ => ⟨[], by simp [flattenObjectProps], by simp⟩
  | cons p ps ih =>
      intro h
      obtain ⟨rs, hrs, hRs⟩ := ih (fun q hq => h q (by simp [hq]))
      rcases h p (by simp) with ⟨nm, v, r, hnm, rfl, hv, hR⟩ |
        ⟨sub, more, rfl, hflat, hmore⟩
      · rcases hnm with hid | hstr
        · refine ⟨Expr.propAssign nm r :: rs, ?_, ?_⟩
          · simp [flattenObjectProps, hid, hv, hrs, bind, Except.bind, pure,
              Except.pure]
          · intro q hq
            rcases List.mem_cons.mp hq with rfl | hq2
            · exact RProp.assign (Or.inl hid) hR
            · exact hRs q hq2
        · obtain ⟨str, rfl⟩ := isStringLitB_eq hstr
          refine ⟨Expr.propAssign (Expr.stringLit str) r :: rs, ?_, ?_⟩
          · simp [flattenObjectProps, isIdentifierB, flattenExpression,
              assertStringLit, hv, hrs, bind, Except.bind, pure, Except.pure]
          · intro q hq
            rcases List.mem_cons.mp hq with rfl | hq2
            · exact RProp.assign (Or.inr (by simp [isStringLitB])) hR
            · exact hRs q hq2
      · have hfilter : more.filter isPropAssignB = more :=
          List.filter_eq_self.mpr (fun q hq => rprop_isPropAssign (hmore q hq))
        refine ⟨more ++ rs, ?_, ?_⟩
        · simp [flattenObjectProps, hflat, hfilter, hrs, bind, Except.bind,
            pure, Except.pure]
        · intro q hq
          rcases List.mem_append.mp hq with hq1 | hq2
          · exact hmore q hq1
          · exact hRs q hq2

/-- `flattenExpression` preserves the array/object-literal shape (needed
to splice spreads). -/
def litShapePreserved (e r : Expr) : Prop :=
  (∀ l, e = Expr.arrayLit l → ∃ ls, r = Expr.arrayLit ls) ∧
  (∀ l, e = Expr.objectLit l → ∃ ls, r = Expr.objectLit ls)

/-- `flattenExpression` is the identity on flatten-stable expressions. -/
lemma flatten_rflat : ∀ (k : Nat) (e : Expr), sizeOf e ≤ k → RFlat e →
    ∀ scope : EventScope, flattenExpression e scope = Except.ok e := by
  intro k
  induction k with
  | zero =>
      intro e he
      exact absurd he (by have := expr_sizeOf_pos e; omega)
  | succ k ih =>
      intro e he h scope
      cases h with
      | str s => simp [flattenExpression]
      | num n => simp [flattenExpression]
      | bool b => simp [flattenExpression]
      | null => simp [flattenExpression]
      | undef => simp [flattenExpression]
      | negNum n => simp [flattenExpression, bind, Except.bind]
      | unary op e2 hop h2 =>
          have he2 : sizeOf e2 ≤ k := by
            simp at he; omega
          simp [flattenExpression, ih e2 he2 h2 scope, bind, Except.bind]
      | arr items hitems =>
          have harr : flattenArrayItems items scope = Except.ok items := by
            apply flattenArrayItems_id
            intro x hx
            refine ⟨rflat_not_spread (hitems x hx), ?_⟩
            have hsx : sizeOf x ≤ k := by
              have h1 := List.sizeOf_lt_of_mem hx
              simp at he
              omega
            exact ih x hsx (hitems x hx) scope
          simp [flattenExpression, harr, bind, Except.bind]
      | obj props hprops =>
          have hobj : flattenObjectProps props scope = Except.ok props := by
            apply flattenObjectProps_id
            intro p hp
            cases hprops p hp with
            | @assign nm v hnm hv =>
                refine ⟨nm, v, hnm, rfl, ?_⟩
                have hsv : sizeOf v ≤ k := by
                  have h1 := List.sizeOf_lt_of_mem hp
                  simp at he h1
                  omega
                exact ih v hsv hv scope
          simp [flattenExpression, hobj, bind, Except.bind]
      | tmpl parts hparts hnc =>
          have hseg : flattenSegments parts scope = Except.ok parts := by
            apply flattenSegments_id
            intro e2 he2
            have hs2 : sizeOf e2 ≤ k := by
              have h1 := List.sizeOf_lt_of_mem he2
              simp at he
              omega
            exact ih e2 hs2 (hparts e2 he2) scope
          obtain ⟨cs, hcs, hall⟩ := mapM_eval_forall₂ parts
            (fun e2 he2 => evalToConstant_of_rflat (hparts e2 he2))
          obtain ⟨e0, he0, hev0⟩ := hnc
          have hnone : none ∈ cs := by
            obtain ⟨c, hcmem, hRc⟩ := forall₂_mem_left hall he0
            rw [hev0] at hRc
            cases hRc
            exact hcmem
          have hallb : cs.all (fun c => c.isSome) = false := by
            rw [Bool.eq_false_iff, Ne, List.all_eq_true]
            intro hallc
            simpa using hallc none hnone
          simp [flattenExpression, hseg, hcs, hallb, bind, Except.bind]

/-- Flattening a fully-constant expression succeeds and lands in the
flatten-stable class, preserving literal shapes. -/
lemma flatten_fc : ∀ (k : Nat) (e : Expr), sizeOf e ≤ k → FullyConstant e →
    ∀ scope : EventScope, ∃ r, flattenExpression e scope = Except.ok r ∧
      RFlat r ∧ litShapePreserved e r := by
  intro k
  induction k with
  | zero =>
      intro e he
      exact absurd he (by have := expr_sizeOf_pos e; omega)
  | succ k ih =>
      intro e he h scope
      cases h with
      | str s =>
          exact ⟨_, by simp [flattenExpression], RFlat.str s,
            by simp [litShapePreserved]⟩
      | num n =>
          exact ⟨_, by simp [flattenExpression], RFlat.num n,
            by simp [litShapePreserved]⟩
      | bool b =>
          exact ⟨_, by simp [flattenExpression], RFlat.bool b,
            by simp [litShapePreserved]⟩
      | null =>
          exact ⟨_, by simp [flattenExpression], RFlat.null,
            by simp [litShapePreserved]⟩
      | undef =>
          exact ⟨_, by simp [flattenExpression], RFlat.undef,
            by simp [litShapePreserved]⟩
      | negNum n =>
          exact ⟨_, by simp [flattenExpression, bind, Except.bind],
            RFlat.negNum n, by simp [litShapePreserved]⟩
      | unary op e2 hop h2 =>
          have he2 : sizeOf e2 ≤ k := by
            simp at he; omega
          obtain ⟨r, hr, hR, _⟩ := ih e2 he2 h2 scope
          exact ⟨Expr.unaryExpr op r,
            by simp [flattenExpression, hr, bind, Except.bind],
            RFlat.unary op r hop hR, by simp [litShapePreserved]⟩
      | arr items hitems =>
          have hsz : sizeOf items ≤ k := by simp at he; omega
          have hx : ∀ x ∈ items,
              ((∀ y, x ≠ Expr.spreadElement y) ∧
                ∃ r, flattenExpression x scope = Except.ok r ∧ RFlat r) ∨
              (∃ sub more, x = Expr.spreadElement (Expr.arrayLit sub) ∧
                flattenExpression (Expr.arrayLit sub) scope =
                  Except.ok (Expr.arrayLit more) ∧ ∀ y ∈ more, RFlat y) := by
            intro x hxmem
            have hsx : sizeOf x ≤ k := by
              have := List.sizeOf_lt_of_mem hxmem; omega
            cases hitems x hxmem with
            | plain hfc =>
                obtain ⟨r, hr, hR, _⟩ := ih x hsx hfc scope
                exact Or.inl ⟨fc_not_spread hfc, r, hr, hR⟩
            | @spread sub hsub =>
                have hssub : sizeOf (Expr.arrayLit sub) ≤ k := by
                  have := List.sizeOf_lt_of_mem hxmem
                  simp at this ⊢
                  omega
                obtain ⟨r, hr, hR, hshape⟩ := ih _ hssub hsub scope
                obtain ⟨ls, rfl⟩ := hshape.1 sub rfl
                exact Or.inr ⟨sub, ls, rfl, hr, rflat_arr_inv hR⟩
          obtain ⟨rs, hrs, hRs⟩ := flattenArrayItems_exists scope items hx
          exact ⟨Expr.arrayLit rs,
            by simp [flattenExpression, hrs, bind, Except.bind],
            RFlat.arr rs hRs, by simp [litShapePreserved]⟩
      | obj props hprops =>
          have hp : ∀ p ∈ props,
              (∃ nm v r, (isIdentifierB nm = true ∨ isStringLitB nm = true) ∧
                p = Expr.propAssign nm v ∧
                flattenExpression v scope = Except.ok r ∧ RFlat r) ∨
              (∃ sub more, p = Expr.spreadAssign (Expr.objectLit sub) ∧
                flattenExpression (Expr.objectLit sub) scope =
                  Except.ok (Expr.objectLit more) ∧ ∀ q ∈ more, RProp q) := by
            intro p hpmem
            cases hprops p hpmem with
            | @assign nm v hnm hv =>
                have hsv : sizeOf v ≤ k := by
                  have h1 := List.sizeOf_lt_of_mem hpmem
                  simp at he h1
                  omega
                obtain ⟨r, hr, hR, _⟩ := ih v hsv hv scope
                exact Or.inl ⟨nm, v, r, hnm, rfl, hr, hR⟩
            | @spread sub hsub =>
                have hssub : sizeOf (Expr.objectLit sub) ≤ k := by
                  have h1 := List.sizeOf_lt_of_mem hpmem
                  simp at he h1 ⊢
                  omega
                obtain ⟨r, hr, hR, hshape⟩ := ih _ hssub hsub scope
                obtain ⟨ls, rfl⟩ := hshape.2 sub rfl
                exact Or.inr ⟨sub, ls, rfl, hr, rflat_objP_inv hR⟩
          obtain ⟨rs, hrs, hRs⟩ := flattenObjectProps_exists scope props hp
          exact ⟨Expr.objectLit rs,
            by simp [flattenExpression, hrs, bind, Except.bind],
            RFlat.obj rs hRs, by simp [litShapePreserved]⟩
      | tmpl parts hparts =>
          have hseg0 : ∀ e2 ∈ parts,
              ∃ r, flattenExpression e2 scope = Except.ok r ∧ RFlat r := by
            intro e2 he2
            have hs2 : sizeOf e2 ≤ k := by
              have h1 := List.sizeOf_lt_of_mem he2
              simp at he
              omega
            obtain ⟨r, hr, hR, _⟩ := ih e2 hs2 (hparts e2 he2) scope
            exact ⟨r, hr, hR⟩
          obtain ⟨rs, hrs, hRs⟩ := flattenSegments_exists scope parts hseg0
          obtain ⟨cs, hcs, hall⟩ := mapM_eval_forall₂ rs
            (fun r hr => evalToConstant_of_rflat (hRs r hr))
          cases hball : cs.all (fun c => c.isSome) with
          | true =>
              exact ⟨Expr.stringLit
                  (String.join (cs.map (fun c => joinToString (constOrUndef c)))),
                by simp [flattenExpression, hrs, hcs, hball, bind, Except.bind],
                RFlat.str _, by simp [litShapePreserved]⟩
          | false =>
              have hex : ∃ c ∈ cs, c.isSome = false := by
                by_contra hcon
                push_neg at hcon
                have : cs.all (fun c => c.isSome) = true :=
                  List.all_eq_true.mpr (fun c hcm => by
                    have hc2 := hcon c hcm
                    cases c
                    · simp at hc2
                    · rfl)
                rw [hball] at this
                cases this
              obtain ⟨c0, hc0, hns⟩ := hex
              have hc0none : c0 = none := by
                cases c0
                · rfl
                · simp at hns
              subst hc0none
              obtain ⟨e0, he0, hev0⟩ := forall₂_mem_right hall hc0
              exact ⟨Expr.templateExpr rs,
                by simp [flattenExpression, hrs, hcs, hball, bind, Except.bind],
                RFlat.tmpl rs hRs ⟨e0, he0, hev0⟩, by simp [litShapePreserved]⟩

/-- **C5.** `flattenExpression` is idempotent on fully-constant input:
flattening a fully-constant expression succeeds, and flattening the
result again returns that result unchanged, for every scope. -/
theorem flatten_idempotent_on_constant (e : Expr) (scope : EventScope)
    (h : FullyConstant e) :
    ∃ r, flattenExpression e scope = Except.ok r ∧
      flattenExpression r scope = Except.ok r := by
  obtain ⟨r, hr, hR, _⟩ := flatten_fc (sizeOf e) e le_rfl h scope
  exact ⟨r, hr, flatten_rflat (sizeOf r) r le_rfl hR scope⟩

/-- Witness for `flatten_idempotent_on_constant` on the fully-constant
template `` `a${1}` ``. -/
theorem flatten_idempotent_on_constant_witness :
    FullyConstant (Expr.templateExpr [Expr.stringLit "a", Expr.numberLit 1]) ∧
    ∃ r, flattenExpression
        (Expr.templateExpr [Expr.stringLit "a", Expr.numberLit 1]) emptyScope =
        Except.ok r ∧
      flattenExpression r emptyScope = Except.ok r := by
  have hfc : FullyConstant
      (Expr.templateExpr [Expr.stringLit "a", Expr.numberLit 1]) := by
    refine FullyConstant.tmpl _ ?_
    intro e he
    simp at he
    rcases he with rfl | rfl
    · exact FullyConstant.str "a"
    · exact FullyConstant.num 1
  exact ⟨hfc, flatten_idempotent_on_constant _ emptyScope hfc⟩

/-! ## C3: attachment effects of `flattenExpression`

Modelled from the spec: expression.ts is not under src/.  Per §3 a node's
`children` are populated at construction time and per §4.1 `setParent`
(node.ts, under src/) both reassigns the child's `parent` reference and
appends the child to the new parent's `children`; each expression
constructor therefore calls `setParent` on the nodes handed to it.  To
observe these effects, expression nodes are annotated with identities and
the flattener is instrumented to log every `setParent` call it triggers
as a pair (child id, new parent id), allocating fresh ids for the nodes
it constructs. -/

/-- Identity-annotated expression nodes (first field: the node's
identity). -/
inductive IExpr where
  | identifier (id : Nat) (name : String)
  | stringLit (id : Nat) (value : String)
  | numberLit (id : Nat) (value : Int)
  | boolLit (id : Nat) (value : Bool)
  | nullLit (id : Nat)
  | undefinedLit (id : Nat)
  | unaryExpr (id : Nat) (op : String) (expr : IExpr)
  | binaryExpr (id : Nat) (left : IExpr) (op : String) (right : IExpr)
  | propAccess (id : Nat) (expr : IExpr) (name : String) (type : Option String)
  | elementAccess (id : Nat) (expr : IExpr) (element : IExpr) (type : Option String)
  | arrayLit (id : Nat) (items : List IExpr)
  | objectLit (id : Nat) (properties : List IExpr)
  | propAssign (id : Nat) (name : IExpr) (expr : IExpr)
  | spreadAssign (id : Nat) (expr : IExpr)
  | spreadElement (id : Nat) (expr : IExpr)
  | computedPropertyName (id : Nat) (expr : IExpr)
  | templateExpr (id : Nat) (exprs : List IExpr)
  | callExpr (id : Nat) (expr : IExpr) (args : List IExpr)
  | referenceExpr (id : Nat) (value : ConstVal)

/-- The identity of a node. -/
def IExpr.nodeId : IExpr → Nat
  | .identifier i _ => i
  | .stringLit i _ => i
  | .numberLit i _ => i
  | .boolLit i _ => i
  | .nullLit i => i
  | .undefinedLit i => i
  | .unaryExpr i _ _ => i
  | .binaryExpr i _ _ _ => i
  | .propAccess i _ _ _ => i
  | .elementAccess i _ _ _ => i
  | .arrayLit i _ => i
  | .objectLit i _ => i
  | .propAssign i _ _ => i
  | .spreadAssign i _ => i
  | .spreadElement i _ => i
  | .computedPropertyName i _ => i
  | .templateExpr i _ => i
  | .callExpr i _ _ => i
  | .referenceExpr i _ => i

mutual
/-- All node identities occurring in a subtree. -/
def idsOf : IExpr → List Nat
  | .identifier i _ => [i]
  | .stringLit i _ => [i]
  | .numberLit i _ => [i]
  | .boolLit i _ => [i]
  | .nullLit i => [i]
  | .undefinedLit i => [i]
  | .unaryExpr i _ e => i :: idsOf e
  | .binaryExpr i l _ r => i :: (idsOf l ++ idsOf r)
  | .propAccess i e _ _ => i :: idsOf e
  | .elementAccess i e el _ => i :: (idsOf e ++ idsOf el)
  | .arrayLit i items => i :: idsOfList items
  | .objectLit i props => i :: idsOfList props
  | .propAssign i n e => i :: (idsOf n ++ idsOf e)
  | .spreadAssign i e => i :: idsOf e
  | .spreadElement i e => i :: idsOf e
  | .computedPropertyName i e => i :: idsOf e
  | .templateExpr i es => i :: idsOfList es
  | .callExpr i e args => i :: (idsOf e ++ idsOfList args)
  | .referenceExpr i _ => [i]

/-- All node identities occurring in a list of subtrees. -/
def idsOfList : List IExpr → List Nat
  | [] => []
  | e :: es => idsOf e ++ idsOfList es
end

/-- The mutation log and id supply: `attached` records each `setParent`
call triggered by node construction as (child id, new parent id). -/
structure AttachState where
  nextId : Nat
  attached : List (Nat × Nat)

/-- Construct a node: allocate a fresh identity and `setParent` each
child onto it (reassigning the child's parent reference and appending to
the fresh node's children). -/
def mkNode (st : AttachState) (children : List IExpr) : Nat × AttachState :=
  (st.nextId,
   { nextId := st.nextId + 1,
     attached := st.attached ++ children.map (fun c => (c.nodeId, st.nextId)) })

/-- `EventScope` over identity-annotated expressions. -/
abbrev IEventScope := String → Option (Option IExpr)

/-- The empty scope. -/
def emptyScopeI : IEventScope := fun _ => none

/-- `isPropAssignExpr` over identity-annotated expressions. -/
def isPropAssignI : IExpr → Bool
  | IExpr.propAssign _ _ _ => true
  | _ => false

/-- `isIdentifier` over identity-annotated expressions. -/
def isIdentifierI : IExpr → Bool
  | IExpr.identifier _ _ => true
  | _ => false

/-- `assertNodeKind<StringLiteralExpr>` over identity-annotated
expressions. -/
def assertStringLitI : IExpr → Except String IExpr
  | e@(IExpr.stringLit _ _) => .ok e
  | _ => .error ("TypeMismatch: expected StringLiteralExpr")

/-- `evalToConstant` over identity-annotated expressions (identities are
never inspected). -/
def evalToConstantI : IExpr → Except String (Option ConstVal)
  | IExpr.stringLit _ s => .ok (some (.str s))
  | IExpr.numberLit _ n => .ok (some (.num n))
  | IExpr.boolLit _ b => .ok (some (.bool b))
  | IExpr.nullLit _ => .ok (some .null)
  | IExpr.undefinedLit _ => .ok (some .undef)
  | IExpr.unaryExpr _ op e =>
      if op = "-" then do
        let c ← evalToConstantI e
        let n ← assertNumber (constOrUndef c)
        .ok (some (.num (-n)))
      else
        .ok none
  | IExpr.propAccess _ e name _ => do
      let c ← evalToConstantI e
      let obj := constOrUndef c
      if obj.truthy then
        match obj with
        | ConstVal.obj fields =>
            match fields.lookup name with
            | some v => .ok (some v)
            | none => .ok none
        | _ => .error ("TypeError: cannot use 'in' operator on a primitive")
      else
        .ok none
  | IExpr.referenceExpr _ v => .ok (some v)
  | _ => .ok none

/-- `getPropertyAccessKey` over identity-annotated expressions. -/
def getPropertyAccessKeyI : IExpr → Except String PropKey
  | IExpr.propAccess _ _ name _ => .ok (.str name)
  | IExpr.elementAccess _ _ element _ => do
      let c ← evalToConstantI element
      match constOrUndef c with
      | ConstVal.str s => .ok (.str s)
      | ConstVal.num n => .ok (.num n)
      | _ => .error ("Property key much be a number or a string")
  | _ => .error ("Property key much be a number or a string")

/-- The `find` over an object literal's properties, identity-annotated. -/
def findPropertyI (props : List IExpr) (key : String) : Option IExpr :=
  (props.filter isPropAssignI).find? (fun p =>
    match p with
    | IExpr.propAssign _ (IExpr.identifier _ n) _ => n = key
    | IExpr.propAssign _ (IExpr.stringLit _ v) _ => v = key
    | _ => false)

/-- Fold a resolved access `parent[key]`, instrumented: rebuilding an
access around `parent` constructs fresh nodes and re-parents `parent`
(and, for an element access, also constructs the fresh numeric-literal
index first). -/
def flattenAccessAttach (parent : IExpr) (key : PropKey) (ty : Option String)
    (st : AttachState) : Except String (IExpr × AttachState) :=
  match parent with
  | IExpr.objectLit _ props =>
      match key with
      | PropKey.str s =>
          match findPropertyI props s with
          | some (IExpr.propAssign _ _ v) => .ok (v, st)
          | _ => .error ("Cannot find property " ++ s ++ " in Object with constant keys")
      | PropKey.num _ => .error ("Object access must be a string.")
  | IExpr.arrayLit _ items =>
      match key with
      | PropKey.num n =>
          match if 0 ≤ n then items.get? n.toNat else none with
          | some e => .ok (e, st)
          | none => .error ("undefined: array index out of range")
      | PropKey.str _ => .error ("Array access must be a number.")
  | _ =>
      match key with
      | PropKey.str s =>
          let r := mkNode st [parent]
          .ok (IExpr.propAccess r.1 parent s ty, r.2)
      | PropKey.num n =>
          let rn := mkNode st []
          let r := mkNode rn.2 [parent, IExpr.numberLit rn.1 n]
          .ok (IExpr.elementAccess r.1 parent (IExpr.numberLit rn.1 n) ty, r.2)

/-- The `map` of `evalToConstantI` over flattened segments. -/
def mapEvalToConstantI : List IExpr → Except String (List (Option ConstVal))
  | [] => .ok []
  | e :: es => do
      let c ← evalToConstantI e
      let cs ← mapEvalToConstantI es
      .ok (c :: cs)

mutual
/-- `flattenExpression` instrumented with the attachment effects of node
construction: the same algorithm as `flattenExpression`, with every
constructor call allocating a fresh identity and logging the `setParent`
calls on its children. -/
def flattenExpressionAttach (expr : IExpr) (scope : IEventScope)
    (st : AttachState) : Except String (IExpr × AttachState) :=
  match expr with
  | IExpr.unaryExpr _ op e => do
      let fe ← flattenExpressionAttach e scope st
      let r := mkNode fe.2 [fe.1]
      .ok (IExpr.unaryExpr r.1 op fe.1, r.2)
  | IExpr.identifier _ name =>
      match scope name with
      | some ref =>
          match ref with
          | some r => .ok (r, st)
          | none => .error ("Reference " ++ name ++ " is not yet instantiated.")
      | none => .ok (expr, st)
  | IExpr.propAccess i obj nm ty => do
      let key ← getPropertyAccessKeyFlattenAttach (IExpr.propAccess i obj nm ty) scope st
      let parent ← flattenExpressionAttach obj scope key.2
      flattenAccessAttach parent.1 key.1 ty parent.2
  | IExpr.elementAccess i obj el ty => do
      let key ← getPropertyAccessKeyFlattenAttach (IExpr.elementAccess i obj el ty) scope st
      let parent ← flattenExpressionAttach obj scope key.2
      flattenAccessAttach parent.1 key.1 ty parent.2
  | IExpr.computedPropertyName _ e => flattenExpressionAttach e scope st
  | IExpr.arrayLit _ items => do
      let newItems ← flattenArrayItemsAttach items scope st
      let r := mkNode newItems.2 newItems.1
      .ok (IExpr.arrayLit r.1 newItems.1, r.2)
  | IExpr.binaryExpr _ l op rr => do
      let fl ← flattenExpressionAttach l scope st
      let fr ← flattenExpressionAttach rr scope fl.2
      let r := mkNode fr.2 [fl.1, fr.1]
      .ok (IExpr.binaryExpr r.1 fl.1 op fr.1, r.2)
  | IExpr.objectLit _ props => do
      let newProps ← flattenObjectPropsAttach props scope st
      let r := mkNode newProps.2 newProps.1
      .ok (IExpr.objectLit r.1 newProps.1, r.2)
  | IExpr.templateExpr _ parts => do
      let fes ← flattenSegmentsAttach parts scope st
      let fcs ← mapEvalToConstantI fes.1
      if fcs.all (fun c => c.isSome) then
        let r := mkNode fes.2 []
        .ok (IExpr.stringLit r.1
          (String.join (fcs.map (fun c => joinToString (constOrUndef c)))), r.2)
      else do
        let again ← flattenSegmentsAttach parts scope fes.2
        let r := mkNode again.2 again.1
        .ok (IExpr.templateExpr r.1 again.1, r.2)
  | e => .ok (e, st)
termination_by (sizeOf expr, 1)
decreasing_by all_goals (simp_wf; first
  | (apply Prod.Lex.right; omega)
  | (apply Prod.Lex.left; simp_arith))

/-- The array-literal `reduce`, instrumented. -/
def flattenArrayItemsAttach (items : List IExpr) (scope : IEventScope)
    (st : AttachState) : Except String (List IExpr × AttachState) :=
  match items with
  | [] => .ok ([], st)
  | x :: xs =>
      match x with
      | IExpr.spreadElement _ e2 => do
          let ref ← flattenExpressionAttach e2 scope st
          match ref.1 with
          | IExpr.arrayLit _ more => do
              let rest ← flattenArrayItemsAttach xs scope ref.2
              .ok (more ++ rest.1, rest.2)
          | _ => .error ("Event Bridge input transforms do not support array spreading non-constant arrays.")
      | e2 => do
          let fe ← flattenExpressionAttach e2 scope st
          let rest ← flattenArrayItemsAttach xs scope fe.2
          .ok (fe.1 :: rest.1, rest.2)
termination_by (sizeOf items, 0)
decreasing_by all_goals (simp_wf; apply Prod.Lex.left; simp_arith)

/-- The object-literal `reduce`, instrumented: each rebuilt property
assignment re-parents its (possibly original) name and value nodes. -/
def flattenObjectPropsAttach (props : List IExpr) (scope : IEventScope)
    (st : AttachState) : Except String (List IExpr × AttachState) :=
  match props with
  | [] => .ok ([], st)
  | p :: ps =>
      match p with
      | IExpr.propAssign _ nm e2 => do
          let nm2 ←
            if isIdentifierI nm then Except.ok (nm, st)
            else do
              let fn ← flattenExpressionAttach nm scope st
              let fn2 ← assertStringLitI fn.1
              Except.ok (fn2, fn.2)
          let fe ← flattenExpressionAttach e2 scope nm2.2
          let r := mkNode fe.2 [nm2.1, fe.1]
          let rest ← flattenObjectPropsAttach ps scope r.2
          .ok (IExpr.propAssign r.1 nm2.1 fe.1 :: rest.1, rest.2)
      | IExpr.spreadAssign _ e2 => do
          let flattened ← flattenExpressionAttach e2 scope st
          match flattened.1 with
          | IExpr.objectLit _ ps2 => do
              let rest ← flattenObjectPropsAttach ps scope flattened.2
              .ok (ps2.filter isPropAssignI ++ rest.1, rest.2)
          | _ => .error ("Event Bridge input transforms do not support object spreading non-constant objects.")
      | _ => .error ("Event Bridge input transforms do not support object spreading non-constant objects.")
termination_by (sizeOf props, 0)
decreasing_by all_goals (simp_wf; apply Prod.Lex.left; simp_arith)

/-- The `map` over a template's segments, instrumented. -/
def flattenSegmentsAttach (parts : List IExpr) (scope : IEventScope)
    (st : AttachState) : Except String (List IExpr × AttachState) :=
  match parts with
  | [] => .ok ([], st)
  | x :: xs => do
      let fe ← flattenExpressionAttach x scope st
      let rest ← flattenSegmentsAttach xs scope fe.2
      .ok (fe.1 :: rest.1, rest.2)
termination_by (sizeOf parts, 0)
decreasing_by all_goals (simp_wf; apply Prod.Lex.left; simp_arith)

/-- `getPropertyAccessKeyFlatten`, instrumented: for an element access
the source constructs a fresh `ElementAccessExpr` around the *original*
object node and the flattened index — re-parenting the original object
node — before reading the key. -/
def getPropertyAccessKeyFlattenAttach (e : IExpr) (scope : IEventScope)
    (st : AttachState) : Except String (PropKey × AttachState) :=
  match e with
  | IExpr.elementAccess _ obj el ty => do
      let fe ← flattenExpressionAttach el scope st
      let r := mkNode fe.2 [obj, fe.1]
      let key ← getPropertyAccessKeyI (IExpr.elementAccess r.1 obj fe.1 ty)
      .ok (key, r.2)
  | e => do
      let key ← getPropertyAccessKeyI e
      .ok (key, st)
termination_by (sizeOf e, 0)
decreasing_by all_goals (simp_wf; apply Prod.Lex.left; simp_arith)
end

/-- The mutation footprint of a compilation step: the id supply only
grows, and every `setParent` call recorded beyond the starting log has a
parent that was freshly allocated (id at least the starting supply) —
i.e. children are only ever appended to nodes constructed during the
step, never to pre-existing nodes. -/
def AttachExtends (st st' : AttachState) : Prop :=
  st.nextId ≤ st'.nextId ∧
  ∀ p ∈ st'.attached, p ∈ st.attached ∨ st.nextId ≤ p.2

lemma attachExtends_refl (st : AttachState) : AttachExtends st st :=
  ⟨le_rfl, fun _ hp => Or.inl hp⟩

lemma attachExtends_trans {a b c : AttachState}
    (h1 : AttachExtends a b) (h2 : AttachExtends b c) : AttachExtends a c := by
  refine ⟨le_trans h1.1 h2.1, ?_⟩
  intro p hp
  rcases h2.2 p hp with hb | hge
  · exact h1.2 p hb
  · exact Or.inr (le_trans h1.1 hge)

lemma attachExtends_mk (st : AttachState) (children : List IExpr) :
    AttachExtends st (mkNode st children).2 := by
  refine ⟨by simp [mkNode], ?_⟩
  intro p hp
  simp only [mkNode, List.mem_append] at hp
  rcases hp with hp | hp
  · exact Or.inl hp
  · obtain ⟨c, _, rfl⟩ := List.mem_map.mp hp
    exact Or.inr le_rfl

lemma iexpr_sizeOf_pos (e : IExpr) : 0 < sizeOf e := by
  cases e <;> simp_arith

lemma flattenAccessAttach_extends (parent : IExpr) (key : PropKey)
    (ty : Option String) (st : AttachState) (r : IExpr × AttachState)
    (h : flattenAccessAttach parent key ty st = Except.ok r) :
    AttachExtends st r.2 := by
  unfold flattenAccessAttach at h
  split at h
  · -- object literal: pick the property out, no construction
    split at h
    · split at h
      · simp only [Except.ok.injEq] at h
        rw [← h]
        exact attachExtends_refl st
      · simp at h
    · simp at h
  · -- array literal: pick the element out, no construction
    split at h
    · split at h
      · simp only [Except.ok.injEq] at h
        rw [← h]
        exact attachExtends_refl st
      · simp at h
    · simp at h
  · -- anything else: rebuild an access around `parent` from fresh nodes
    split at h
    · simp only [Except.ok.injEq] at h
      rw [← h]
      exact attachExtends_mk st _
    · simp only [Except.ok.injEq] at h
      rw [← h]
      exact attachExtends_trans (attachExtends_mk st []) (attachExtends_mk _ _)

lemma flattenArrayItemsAttach_cons_nonspread (x : IExpr)
    (hs : ∀ j y, x ≠ IExpr.spreadElement j y) (xs : List IExpr)
    (scope : IEventScope) (st : AttachState) :
    flattenArrayItemsAttach (x :: xs) scope st =
      (flattenExpressionAttach x scope st).bind (fun fe =>
        (flattenArrayItemsAttach xs scope fe.2).bind (fun rest =>
          Except.ok (fe.1 :: rest.1, rest.2))) := by
  cases x <;>
    first
      | exact absurd rfl (hs _ _)
      | simp [flattenArrayItemsAttach, bind, Except.bind]

lemma flattenAttach_extends : ∀ (k : Nat),
    (∀ e : IExpr, sizeOf e ≤ k → ∀ (scope : IEventScope) (st : AttachState) r,
      flattenExpressionAttach e scope st = Except.ok r → AttachExtends st r.2) ∧
    (∀ items : List IExpr, sizeOf items ≤ k → ∀ (scope : IEventScope) st r,
      flattenArrayItemsAttach items scope st = Except.ok r → AttachExtends st r.2) ∧
    (∀ props : List IExpr, sizeOf props ≤ k → ∀ (scope : IEventScope) st r,
      flattenObjectPropsAttach props scope st = Except.ok r → AttachExtends st r.2) ∧
    (∀ parts : List IExpr, sizeOf parts ≤ k → ∀ (scope : IEventScope) st r,
      flattenSegmentsAttach parts scope st = Except.ok r → AttachExtends st r.2) ∧
    (∀ e : IExpr, sizeOf e ≤ k → ∀ (scope : IEventScope) st r,
      getPropertyAccessKeyFlattenAttach e scope st = Except.ok r →
        AttachExtends st r.2) := by
  intro k
  induction k with
  | zero =>
      refine ⟨?_, ?_, ?_, ?_, ?_⟩
      · intro e he
        exact absurd he (by have := iexpr_sizeOf_pos e; omega)
      · intro items he
        exact absurd he (by cases items <;> simp_arith)
      · intro props he
        exact absurd he (by cases props <;> simp_arith)
      · intro parts he
        exact absurd he (by cases parts <;> simp_arith)
      · intro e he
        exact absurd he (by have := iexpr_sizeOf_pos e; omega)
  | succ k ih =>
      obtain ⟨ihE, ihA, ihO, ihS, ihK⟩ := ih
      -- the key helper at level k+1 first: it only recurses into strictly
      -- smaller expressions
      have hK1 : ∀ e : IExpr, sizeOf e ≤ k + 1 →
          ∀ (scope : IEventScope) st r,
            getPropertyAccessKeyFlattenAttach e scope st = Except.ok r →
              AttachExtends st r.2 := by
        intro e he scope st r h
        cases e with
        | elementAccess i obj el ty =>
            simp only [getPropertyAccessKeyFlattenAttach] at h
            cases hf : flattenExpressionAttach el scope st with
            | error s =>
                rw [hf] at h
                simp [bind, Except.bind] at h
            | ok fe =>
                rw [hf] at h
                simp only [bind, Except.bind] at h
                have h1 : AttachExtends st fe.2 :=
                  ihE el (by simp at he; omega) scope st fe hf
                have h2 : AttachExtends fe.2 (mkNode fe.2 [obj, fe.1]).2 :=
                  attachExtends_mk _ _
                cases hk : getPropertyAccessKeyI
                    (IExpr.elementAccess (mkNode fe.2 [obj, fe.1]).1 obj fe.1 ty) with
                | error s => rw [hk] at h; simp [bind, Except.bind] at h
                | ok key =>
                    rw [hk] at h
                    simp only [bind, Except.bind, Except.ok.injEq] at h
                    rw [← h]
                    exact attachExtends_trans h1 h2
        | propAccess i obj nm ty =>
            simp only [getPropertyAccessKeyFlattenAttach, getPropertyAccessKeyI,
              bind, Except.bind, Except.ok.injEq] at h
            rw [← h]
            exact attachExtends_refl st
        | identifier i n =>
            simp [getPropertyAccessKeyFlattenAttach, getPropertyAccessKeyI,
              bind, Except.bind] at h
        | stringLit i s =>
            simp [getPropertyAccessKeyFlattenAttach, getPropertyAccessKeyI,
              bind, Except.bind] at h
        | numberLit i n =>
            simp [getPropertyAccessKeyFlattenAttach, getPropertyAccessKeyI,
              bind, Except.bind] at h
        | boolLit i b =>
            simp [getPropertyAccessKeyFlattenAttach, getPropertyAccessKeyI,
              bind, Except.bind] at h
        | nullLit i =>
            simp [getPropertyAccessKeyFlattenAttach, getPropertyAccessKeyI,
              bind, Except.bind] at h
        | undefinedLit i =>
            simp [getPropertyAccessKeyFlattenAttach, getPropertyAccessKeyI,
              bind, Except.bind] at h
        | unaryExpr i op e2 =>
            simp [getPropertyAccessKeyFlattenAttach, getPropertyAccessKeyI,
              bind, Except.bind] at h
        | binaryExpr i l op rr =>
            simp [getPropertyAccessKeyFlattenAttach, getPropertyAccessKeyI,
              bind, Except.bind] at h
        | arrayLit i items =>
            simp [getPropertyAccessKeyFlattenAttach, getPropertyAccessKeyI,
              bind, Except.bind] at h
        | objectLit i props =>
            simp [getPropertyAccessKeyFlattenAttach, getPropertyAccessKeyI,
              bind, Except.bind] at h
        | propAssign i n v =>
            simp [getPropertyAccessKeyFlattenAttach, getPropertyAccessKeyI,
              bind, Except.bind] at h
        | spreadAssign i v =>
            simp [getPropertyAccessKeyFlattenAttach, getPropertyAccessKeyI,
              bind, Except.bind] at h
        | spreadElement i v =>
            simp [getPropertyAccessKeyFlattenAttach, getPropertyAccessKeyI,
              bind, Except.bind] at h
        | computedPropertyName i v =>
            simp [getPropertyAccessKeyFlattenAttach, getPropertyAccessKeyI,
              bind, Except.bind] at h
        | templateExpr i es =>
            simp [getPropertyAccessKeyFlattenAttach, getPropertyAccessKeyI,
              bind, Except.bind] at h
        | callExpr i f args =>
            simp [getPropertyAccessKeyFlattenAttach, getPropertyAccessKeyI,
              bind, Except.bind] at h
        | referenceExpr i v =>
            simp [getPropertyAccessKeyFlattenAttach, getPropertyAccessKeyI,
              bind, Except.bind] at h
      refine ⟨?_, ?_, ?_, ?_, fun e he => hK1 e he⟩
      · -- flattenExpressionAttach
        intro e he scope st r h
        cases e
        case unaryExpr i op e2 =>
          simp only [flattenExpressionAttach] at h
          cases hf : flattenExpressionAttach e2 scope st with
          | error s => rw [hf] at h; simp [bind, Except.bind] at h
          | ok fe =>
              rw [hf] at h
              simp only [bind, Except.bind, Except.ok.injEq] at h
              rw [← h]
              exact attachExtends_trans
                (ihE e2 (by simp at he; omega) scope st fe hf)
                (attachExtends_mk _ _)
        case identifier i n =>
          simp only [flattenExpressionAttach] at h
          cases hs : scope n with
          | none =>
              rw [hs] at h
              simp only [Except.ok.injEq] at h
              rw [← h]
              exact attachExtends_refl st
          | some ref =>
              rw [hs] at h
              cases ref with
              | none => simp at h
              | some r2 =>
                  simp only [Except.ok.injEq] at h
                  rw [← h]
                  exact attachExtends_refl st
        case propAccess i obj nm ty =>
          simp only [flattenExpressionAttach] at h
          cases hk : getPropertyAccessKeyFlattenAttach
              (IExpr.propAccess i obj nm ty) scope st with
          | error s => rw [hk] at h; simp [bind, Except.bind] at h
          | ok key =>
              rw [hk] at h
              simp only [bind, Except.bind] at h
              cases hf : flattenExpressionAttach obj scope key.2 with
              | error s => rw [hf] at h; simp [bind, Except.bind] at h
              | ok parent =>
                  rw [hf] at h
                  simp only [bind, Except.bind] at h
                  exact attachExtends_trans (hK1 _ he scope st key hk)
                    (attachExtends_trans
                      (ihE obj (by simp at he; omega) scope key.2 parent hf)
                      (flattenAccessAttach_extends parent.1 key.1 ty parent.2 r h))
        case elementAccess i obj el ty =>
          simp only [flattenExpressionAttach] at h
          cases hk : getPropertyAccessKeyFlattenAttach
              (IExpr.elementAccess i obj el ty) scope st with
          | error s => rw [hk] at h; simp [bind, Except.bind] at h
          | ok key =>
              rw [hk] at h
              simp only [bind, Except.bind] at h
              cases hf : flattenExpressionAttach obj scope key.2 with
              | error s => rw [hf] at h; simp [bind, Except.bind] at h
              | ok parent =>
                  rw [hf] at h
                  simp only [bind, Except.bind] at h
                  exact attachExtends_trans (hK1 _ he scope st key hk)
                    (attachExtends_trans
                      (ihE obj (by simp at he; omega) scope key.2 parent hf)
                      (flattenAccessAttach_extends parent.1 key.1 ty parent.2 r h))
        case computedPropertyName i e2 =>
          simp only [flattenExpressionAttach] at h
          exact ihE e2 (by simp at he; omega) scope st r h
        case arrayLit i items =>
          simp only [flattenExpressionAttach] at h
          cases hf : flattenArrayItemsAttach items scope st with
          | error s => rw [hf] at h; simp [bind, Except.bind] at h
          | ok ni =>
              rw [hf] at h
              simp only [bind, Except.bind, Except.ok.injEq] at h
              rw [← h]
              exact attachExtends_trans
                (ihA items (by simp at he; omega) scope st ni hf)
                (attachExtends_mk _ _)
        case binaryExpr i l op rr =>
          simp only [flattenExpressionAttach] at h
          cases hfl : flattenExpressionAttach l scope st with
          | error s => rw [hfl] at h; simp [bind, Except.bind] at h
          | ok fl =>
              rw [hfl] at h
              simp only [bind, Except.bind] at h
              cases hfr : flattenExpressionAttach rr scope fl.2 with
              | error s => rw [hfr] at h; simp [bind, Except.bind] at h
              | ok fr =>
                  rw [hfr] at h
                  simp only [bind, Except.bind, Except.ok.injEq] at h
                  rw [← h]
                  exact attachExtends_trans
                    (ihE l (by simp at he; omega) scope st fl hfl)
                    (attachExtends_trans
                      (ihE rr (by simp at he; omega) scope fl.2 fr hfr)
                      (attachExtends_mk _ _))
        case objectLit i props =>
          simp only [flattenExpressionAttach] at h
          cases hf : flattenObjectPropsAttach props scope st with
          | error s => rw [hf] at h; simp [bind, Except.bind] at h
          | ok np =>
              rw [hf] at h
              simp only [bind, Except.bind, Except.ok.injEq] at h
              rw [← h]
              exact attachExtends_trans
                (ihO props (by simp at he; omega) scope st np hf)
                (attachExtends_mk _ _)
        case templateExpr i parts =>
          simp only [flattenExpressionAttach] at h
          cases hf : flattenSegmentsAttach parts scope st with
          | error s => rw [hf] at h; simp [bind, Except.bind] at h
          | ok fes =>
              rw [hf] at h
              simp only [bind, Except.bind] at h
              cases hm : mapEvalToConstantI fes.1 with
              | error s => rw [hm] at h; simp [bind, Except.bind] at h
              | ok fcs =>
                  rw [hm] at h
                  simp only [bind, Except.bind] at h
                  split at h
                  · simp only [Except.ok.injEq] at h
                    rw [← h]
                    exact attachExtends_trans
                      (ihS parts (by simp at he; omega) scope st fes hf)
                      (attachExtends_mk _ _)
                  · cases hg : flattenSegmentsAttach parts scope fes.2 with
                    | error s => rw [hg] at h; simp [bind, Except.bind] at h
                    | ok again =>
                        rw [hg] at h
                        simp only [bind, Except.bind, Except.ok.injEq] at h
                        rw [← h]
                        exact attachExtends_trans
                          (ihS parts (by simp at he; omega) scope st fes hf)
                          (attachExtends_trans
                            (ihS parts (by simp at he; omega) scope fes.2 again hg)
                            (attachExtends_mk _ _))
        all_goals
          simp only [flattenExpressionAttach, Except.ok.injEq] at h
          rw [← h]
          exact attachExtends_refl st
      · -- flattenArrayItemsAttach
        intro items he scope st r h
        cases items with
        | nil =>
            simp only [flattenArrayItemsAttach, Except.ok.injEq] at h
            rw [← h]
            exact attachExtends_refl st
        | cons x xs =>
            by_cases hsp : ∃ j y, x = IExpr.spreadElement j y
            · obtain ⟨j, e2, rfl⟩ := hsp
              simp only [flattenArrayItemsAttach] at h
              cases hf : flattenExpressionAttach e2 scope st with
              | error s => rw [hf] at h; simp [bind, Except.bind] at h
              | ok ref =>
                  rw [hf] at h
                  simp only [bind, Except.bind] at h
                  split at h
                  · cases hrest : flattenArrayItemsAttach xs scope ref.2 with
                    | error s => rw [hrest] at h; simp [bind, Except.bind] at h
                    | ok rest =>
                        rw [hrest] at h
                        simp only [bind, Except.bind, Except.ok.injEq] at h
                        rw [← h]
                        exact attachExtends_trans
                          (ihE e2 (by simp at he; omega) scope st ref hf)
                          (ihA xs (by simp at he; omega) scope ref.2 rest hrest)
                  · simp at h
            · have hns : ∀ j y, x ≠ IExpr.spreadElement j y := by
                intro j y hxy
                exact hsp ⟨j, y, hxy⟩
              rw [flattenArrayItemsAttach_cons_nonspread x hns xs scope st] at h
              cases hf : flattenExpressionAttach x scope st with
              | error s => rw [hf] at h; simp [Except.bind] at h
              | ok fe =>
                  rw [hf] at h
                  simp only [Except.bind] at h
                  cases hrest : flattenArrayItemsAttach xs scope fe.2 with
                  | error s => rw [hrest] at h; simp [Except.bind] at h
                  | ok rest =>
                      rw [hrest] at h
                      simp only [Except.bind, Except.ok.injEq] at h
                      rw [← h]
                      exact attachExtends_trans
                        (ihE x (by simp at he; omega) scope st fe hf)
                        (ihA xs (by simp at he; omega) scope fe.2 rest hrest)
      · -- flattenObjectPropsAttach
        intro props he scope st r h
        cases props with
        | nil =>
            simp only [flattenObjectPropsAttach, Except.ok.injEq] at h
            rw [← h]
            exact attachExtends_refl st
        | cons p ps =>
            cases p
            case propAssign j nm e2 =>
              simp only [flattenObjectPropsAttach] at h
              by_cases hid : isIdentifierI nm = true
              · rw [if_pos hid] at h
                simp only [bind, Except.bind] at h
                cases hfe : flattenExpressionAttach e2 scope st with
                | error s => rw [hfe] at h; simp [bind, Except.bind] at h
                | ok fe =>
                    rw [hfe] at h
                    simp only [bind, Except.bind] at h
                    cases hrest : flattenObjectPropsAttach ps scope
                        (mkNode fe.2 [nm, fe.1]).2 with
                    | error s => rw [hrest] at h; simp [bind, Except.bind] at h
                    | ok rest =>
                        rw [hrest] at h
                        simp only [bind, Except.bind, Except.ok.injEq] at h
                        rw [← h]
                        exact attachExtends_trans
                          (ihE e2 (by simp at he; omega) scope st fe hfe)
                          (attachExtends_trans (attachExtends_mk _ _)
                            (ihO ps (by simp at he; omega) scope _ rest hrest))
              · rw [if_neg hid] at h
                simp only [bind, Except.bind] at h
                cases hfn : flattenExpressionAttach nm scope st with
                | error s => rw [hfn] at h; simp [bind, Except.bind] at h
                | ok fn =>
                    rw [hfn] at h
                    simp only [bind, Except.bind] at h
                    cases hfn2 : assertStringLitI fn.1 with
                    | error s => rw [hfn2] at h; simp [bind, Except.bind] at h
                    | ok fn2 =>
                        rw [hfn2] at h
                        simp only [bind, Except.bind] at h
                        cases hfe : flattenExpressionAttach e2 scope fn.2 with
                        | error s => rw [hfe] at h; simp [bind, Except.bind] at h
                        | ok fe =>
                            rw [hfe] at h
                            simp only [bind, Except.bind] at h
                            cases hrest : flattenObjectPropsAttach ps scope
                                (mkNode fe.2 [fn2, fe.1]).2 with
                            | error s =>
                                rw [hrest] at h
                                simp [bind, Except.bind] at h
                            | ok rest =>
                                rw [hrest] at h
                                simp only [bind, Except.bind,
                                  Except.ok.injEq] at h
                                rw [← h]
                                exact attachExtends_trans
                                  (ihE nm (by simp at he; omega) scope st fn hfn)
                                  (attachExtends_trans
                                    (ihE e2 (by simp at he; omega) scope fn.2 fe hfe)
                                    (attachExtends_trans (attachExtends_mk _ _)
                                      (ihO ps (by simp at he; omega) scope _ rest hrest)))
            case spreadAssign j e2 =>
              simp only [flattenObjectPropsAttach] at h
              cases hf : flattenExpressionAttach e2 scope st with
              | error s => rw [hf] at h; simp [bind, Except.bind] at h
              | ok fl =>
                  rw [hf] at h
                  simp only [bind, Except.bind] at h
                  split at h
                  · cases hrest : flattenObjectPropsAttach ps scope fl.2 with
                    | error s => rw [hrest] at h; simp [bind, Except.bind] at h
                    | ok rest =>
                        rw [hrest] at h
                        simp only [bind, Except.bind, Except.ok.injEq] at h
                        rw [← h]
                        exact attachExtends_trans
                          (ihE e2 (by simp at he; omega) scope st fl hf)
                          (ihO ps (by simp at he; omega) scope fl.2 rest hrest)
                  · simp at h
            all_goals simp [flattenObjectPropsAttach] at h
      · -- flattenSegmentsAttach
        intro parts he scope st r h
        cases parts with
        | nil =>
            simp only [flattenSegmentsAttach, Except.ok.injEq] at h
            rw [← h]
            exact attachExtends_refl st
        | cons x xs =>
            simp only [flattenSegmentsAttach] at h
            cases hf : flattenExpressionAttach x scope st with
            | error s => rw [hf] at h; simp [bind, Except.bind] at h
            | ok fe =>
                rw [hf] at h
                simp only [bind, Except.bind] at h
                cases hrest : flattenSegmentsAttach xs scope fe.2 with
                | error s => rw [hrest] at h; simp [bind, Except.bind] at h
                | ok rest =>
                    rw [hrest] at h
                    simp only [bind, Except.bind, Except.ok.injEq] at h
                    rw [← h]
                    exact attachExtends_trans
                      (ihE x (by simp at he; omega) scope st fe hf)
                      (ihS xs (by simp at he; omega) scope fe.2 rest hrest)

/-- **C3** (counterexample).  Flattening the binary expression `7 + 8`
(node ids 0 and 1 under root 2) in the empty scope reuses both original
literal nodes and rebuilds the binary expression around them: the run
records the `setParent` calls (0, 3) and (1, 3).  Node 0 is reachable
from the input expression while 3 is not an id of the input (it is the
freshly built replacement root), so a node reachable from the input has
its parent reference reassigned by the call — refuting the claim that
every node reachable from the input, including its parent reference, is
unchanged. -/
theorem flattenExpressionAttach_reparents_input :
    flattenExpressionAttach
        (IExpr.binaryExpr 2 (IExpr.numberLit 0 7) "+" (IExpr.numberLit 1 8))
        emptyScopeI ⟨3, []⟩ =
      Except.ok
        (IExpr.binaryExpr 3 (IExpr.numberLit 0 7) "+" (IExpr.numberLit 1 8),
         ⟨4, [(0, 3), (1, 3)]⟩) ∧
    0 ∈ idsOf (IExpr.binaryExpr 2 (IExpr.numberLit 0 7) "+"
                 (IExpr.numberLit 1 8)) ∧
    3 ∉ idsOf (IExpr.binaryExpr 2 (IExpr.numberLit 0 7) "+"
                 (IExpr.numberLit 1 8)) := by
  refine ⟨?_, ?_, ?_⟩
  · simp [flattenExpressionAttach, mkNode, bind, Except.bind, IExpr.nodeId]
  · simp [idsOf, idsOfList]
  · simp [idsOf, idsOfList]

/-- **C3** (amended).  For every expression, scope, and starting
attachment state: whenever the instrumented flattener succeeds, the id
supply only grows and every `setParent` recorded during the run attaches
a child onto a freshly constructed node (parent id at least the starting
supply).  The flattener builds replacement nodes and never pushes
children onto pre-existing nodes; it does, however, reassign the parent
references of input nodes it reuses (see the counterexample). -/
theorem flattenExpressionAttach_fresh_parents (e : IExpr)
    (scope : IEventScope) (st : AttachState) (r : IExpr × AttachState)
    (h : flattenExpressionAttach e scope st = Except.ok r) :
    AttachExtends st r.2 :=
  (flattenAttach_extends (sizeOf e)).1 e le_rfl scope st r h

/-- Witness for the amended C3 theorem: flattening `7 + 8` from id
supply 3 and an empty log yields exactly the fresh-parent attachments
(0, 3) and (1, 3). -/
theorem flattenExpressionAttach_fresh_parents_witness :
    AttachExtends ⟨3, []⟩ ⟨4, [(0, 3), (1, 3)]⟩ :=
  flattenExpressionAttach_fresh_parents
    (IExpr.binaryExpr 2 (IExpr.numberLit 0 7) "+" (IExpr.numberLit 1 8))
    emptyScopeI ⟨3, []⟩
    (IExpr.binaryExpr 3 (IExpr.numberLit 0 7) "+" (IExpr.numberLit 1 8),
     ⟨4, [(0, 3), (1, 3)]⟩)
    (by simp [flattenExpressionAttach, mkNode, bind, Except.bind,
          IExpr.nodeId])

/-! ### The resolver pipeline compiler (appsync.ts) -/

/-- The backend kinds a recognized service call can resolve to.
Modelled from the spec: the concrete constructs live outside src/; only
the kind distinction matters to the compiler (a workflow orchestrator
additionally gets a status-check preamble, with the express/standard
distinction picking the preamble variant). -/
inductive SvcKind
  | table
  | lambdaFn
  | stepExpress
  | stepStandard

/-- The statement shapes `synthesizeFunctions` distinguishes
(`stmt.kind` in appsync.ts): expression statements, return statements,
variable declarations (with whether the initializer is a call
expression), if statements, and everything else. -/
inductive RKind
  | exprStmt
  | returnStmt
  | variableStmt (name : String) (isCallInit : Bool)
  | ifStmt
  | otherStmt

/-- A statement of a resolver function body.  Modelled from the spec:
`findService` (util.ts, not under src/) decides whether a statement
invokes a recognized external service, so each statement carries that
verdict directly, together with the logical callee name `toName` would
produce for stage naming. -/
structure RStmt where
  kind : RKind
  service : Option SvcKind
  callName : String

/-- `findService` (util.ts, not under src/).  Modelled from the spec:
reads the statement's recognized-service verdict. -/
def findService (s : RStmt) : Option SvcKind := s.service

/-- `countResolvers`: the number of statements that invoke a recognized
external service. -/
def countResolvers (stmts : List RStmt) : Nat :=
  (stmts.filter (fun s => (findService s).isSome)).length

/-- One VTL template, kept at chunk granularity.  Modelled from the
spec: vtl.ts is not under src/, so rendering is abstract; what matters
is which chunks a template contains and whether a chunk reads or writes
the shared stash. -/
inductive VTLChunk
  | circuitBreaker
  | evalStmt (s : RStmt)
  | returnExprDirect (s : RStmt)
  | returnNull
  | callRequest (callName : String)
  | stashSetReturn
  | stashSetVar (name : String)
  | stepFnPreamble (express : Bool)
  | emptyObject

/-- Whether a chunk involves the shared pipeline stash: the
circuit-breaker preamble reads the return flag, and the stage
continuations write the return flag/value or a named slot. -/
def VTLChunk.usesStash : VTLChunk → Bool
  | VTLChunk.circuitBreaker => true
  | VTLChunk.stashSetReturn => true
  | VTLChunk.stashSetVar _ => true
  | _ => false

/-- A mapping template as pushed into the `templates` array: either a
literal string or a rendered VTL chunk list. -/
inductive Template
  | lit (s : String)
  | vtl (chunks : List VTLChunk)

/-- A pipeline function (`dataSource.createFunction` result): its
deduplicated name and its stage pair. -/
structure StageFn where
  name : String
  requestTemplate : List VTLChunk
  responseTemplate : List VTLChunk

/-- The zero-resolver branch's request mapping template, exactly as the
source writes it. -/
def mockRequestTemplate : String :=
  "\x7b\n  \"version\": \"2018-05-29\",\n  \"payload\": null\n\x7d"

/-- `createStage`: finalize the accumulated buffer as the stage's
request template, record the stage pair in the `templates` array, and
allocate a deduplicated stage name via `getUniqueName`. -/
def createStage (callName : String) (request response : List VTLChunk)
    (names : UniqueNames) : StageFn × UniqueNames :=
  let un := getUniqueName names callName
  ({ name := un.1, requestTemplate := request, responseTemplate := response },
   un.2)

/-- The statement loop of `synthesizeFunctions`: walk the statements in
order, accumulating evaluation into the current template buffer; on a
service-invoking statement, classify it (bare call / return /
declaration-with-call, anything else is rejected), emit a stage whose
request template is the buffer plus the rendered call, and reset the
buffer to a fresh circuit-breaker template; a trailing non-service
statement evaluates a return directly, evaluates a conditional, or
defaults to a null return.  Returns the stages, the stage templates
pushed along the way, the final buffer (the response mapping template)
and the updated name supply. -/
def synthGo (stmts : List RStmt) (template : List VTLChunk)
    (names : UniqueNames) :
    Except String (List StageFn × List Template × List VTLChunk × UniqueNames) :=
  match stmts with
  | [] => Except.ok ([], [], template, names)
  | stmt :: rest =>
      match findService stmt with
      | some svc =>
          let pre : List VTLChunk :=
            match svc with
            | SvcKind.stepExpress => [VTLChunk.stepFnPreamble true]
            | SvcKind.stepStandard => [VTLChunk.stepFnPreamble false]
            | _ => []
          let request := template ++ [VTLChunk.callRequest stmt.callName]
          match stmt.kind with
          | RKind.exprStmt =>
              let st := createStage stmt.callName request
                [VTLChunk.emptyObject] names
              match synthGo rest [VTLChunk.circuitBreaker] st.2 with
              | Except.ok (stages, pushed, final, names') =>
                  Except.ok (st.1 :: stages,
                    Template.vtl request ::
                      Template.vtl st.1.responseTemplate :: pushed,
                    final, names')
              | Except.error e => Except.error e
          | RKind.returnStmt =>
              let st := createStage stmt.callName request
                (pre ++ [VTLChunk.stashSetReturn, VTLChunk.emptyObject]) names
              match synthGo rest [VTLChunk.circuitBreaker] st.2 with
              | Except.ok (stages, pushed, final, names') =>
                  Except.ok (st.1 :: stages,
                    Template.vtl request ::
                      Template.vtl st.1.responseTemplate :: pushed,
                    final, names')
              | Except.error e => Except.error e
          | RKind.variableStmt name true =>
              let st := createStage stmt.callName request
                (pre ++ [VTLChunk.stashSetVar name, VTLChunk.emptyObject]) names
              match synthGo rest [VTLChunk.circuitBreaker] st.2 with
              | Except.ok (stages, pushed, final, names') =>
                  Except.ok (st.1 :: stages,
                    Template.vtl request ::
                      Template.vtl st.1.responseTemplate :: pushed,
                    final, names')
              | Except.error e => Except.error e
          | _ =>
              Except.error ("only a 'VariableDecl', 'Call' or 'Return' expression may call a service")
      | none =>
          match rest with
          | [] =>
              match stmt.kind with
              | RKind.returnStmt =>
                  Except.ok ([], [],
                    template ++ [VTLChunk.returnExprDirect stmt], names)
              | RKind.ifStmt =>
                  Except.ok ([], [],
                    template ++ [VTLChunk.evalStmt stmt], names)
              | _ =>
                  Except.ok ([], [],
                    template ++ [VTLChunk.returnNull], names)
          | _ =>
              synthGo rest (template ++ [VTLChunk.evalStmt stmt]) names

/-- `synthesizeFunctions`: seed the buffer with a plain template when no
statement calls a service, else with a circuit-breaker template, and run
the statement loop. -/
def synthesizeFunctions (stmts : List RStmt) (names : UniqueNames) :
    Except String (List StageFn × List Template × List VTLChunk × UniqueNames) :=
  synthGo stmts
    (if countResolvers stmts = 0 then [] else [VTLChunk.circuitBreaker])
    names

/-- The observable output of `addResolver`: the `templates` array in
final push order, the pipeline functions handed to the resolver (empty
for the mock/none-data-source branch, which passes none), and the
resolver's request and response mapping templates. -/
structure SynthResolver where
  templates : List Template
  pipelineConfig : List StageFn
  requestMappingTemplate : Template
  responseMappingTemplate : Template

/-- `AppsyncResolver.addResolver`: count the service-invoking
statements; with zero, synthesize (asserting no pipeline functions came
back), use the fixed mock request template and the synthesized response
template, and pass no pipeline functions; otherwise use the empty-object
request template and the synthesized pipeline. -/
def addResolver (stmts : List RStmt) (names : UniqueNames) :
    Except String (SynthResolver × UniqueNames) :=
  if countResolvers stmts = 0 then
    match synthesizeFunctions stmts names with
    | Except.error e => Except.error e
    | Except.ok (pipelineConfig, pushed, responseChunks, names') =>
        if pipelineConfig.length ≠ 0 then
          Except.error ("expected 0 functions in pipelineConfig, but found " ++
            Nat.repr pipelineConfig.length)
        else
          Except.ok
            ({ templates := pushed ++ [Template.lit mockRequestTemplate,
                 Template.vtl responseChunks],
               pipelineConfig := [],
               requestMappingTemplate := Template.lit mockRequestTemplate,
               responseMappingTemplate := Template.vtl responseChunks },
             names')
  else
    match synthesizeFunctions stmts names with
    | Except.error e => Except.error e
    | Except.ok (pipelineConfig, pushed, responseChunks, names') =>
        Except.ok
          ({ templates := Template.lit "\x7b\x7d" ::
               (pushed ++ [Template.vtl responseChunks]),
             pipelineConfig := pipelineConfig,
             requestMappingTemplate := Template.lit "\x7b\x7d",
             responseMappingTemplate := Template.vtl responseChunks },
           names')

/-- The claim's description of the zero-service response template,
written from the spec's words for comparison: evaluate the statements
directly into one template — a terminal return evaluates its expression
directly, a terminal conditional translates directly, any other terminal
defaults to a null response — with no circuit-breaker preamble. -/
def specDirectResponse : List RStmt → List VTLChunk
  | [] => []
  | [s] =>
      match s.kind with
      | RKind.returnStmt => [VTLChunk.returnExprDirect s]
      | RKind.ifStmt => [VTLChunk.evalStmt s]
      | _ => [VTLChunk.returnNull]
  | s :: rest => VTLChunk.evalStmt s :: specDirectResponse rest

lemma countResolvers_zero_iff (stmts : List RStmt) :
    countResolvers stmts = 0 ↔ ∀ s ∈ stmts, findService s = none := by
  unfold countResolvers
  rw [List.length_eq_zero, List.filter_eq_nil_iff]
  constructor
  · intro h s hs
    have := h s hs
    cases hf : findService s
    · rfl
    · rw [hf] at this
      simp at this
  · intro h s hs
    rw [h s hs]
    simp

lemma synthGo_no_service : ∀ (stmts : List RStmt),
    (∀ s ∈ stmts, findService s = none) →
    ∀ (template : List VTLChunk) (names : UniqueNames),
      synthGo stmts template names =
        Except.ok ([], [], template ++ specDirectResponse stmts, names) := by
  intro stmts
  induction stmts with
  | nil =>
      intro _ template names
      simp [synthGo, specDirectResponse]
  | cons stmt rest ih =>
      intro h template names
      have hs : findService stmt = none := h stmt (by simp)
      cases rest with
      | nil =>
          cases hk : stmt.kind <;>
            simp [synthGo, hs, hk, specDirectResponse]
      | cons r rest' =>
          have hrec := ih (fun s hsm => h s (by simp [hsm]))
            (template ++ [VTLChunk.evalStmt stmt]) names
          simp only [synthGo, hs] at hrec ⊢
          rw [hrec]
          simp [specDirectResponse, List.append_assoc]

lemma specDirectResponse_stash_free : ∀ (stmts : List RStmt),
    (specDirectResponse stmts).all (fun c => !c.usesStash) = true := by
  intro stmts
  induction stmts with
  | nil => simp [specDirectResponse]
  | cons s rest ih =>
      cases rest with
      | nil => cases hk : s.kind <;> simp [specDirectResponse, hk, VTLChunk.usesStash]
      | cons r rest' =>
          simp [specDirectResponse, VTLChunk.usesStash] at ih ⊢
          exact ih

/-- **C2**: for every resolver function body in which zero statements
invoke a recognized external service, `addResolver` succeeds and emits
zero pipeline functions, a `templates` array holding exactly one stage
pair — the fixed mock request literal followed by the response template
— a request mapping template equal to that fixed literal (which, with
whitespace removed, is the claim's rendering of it), and a response
mapping template equal to the direct evaluation of the statements (the
spec-side `specDirectResponse`), every chunk of which is stash-free. -/
theorem addResolver_zero_services (stmts : List RStmt) (names : UniqueNames)
    (h0 : countResolvers stmts = 0) :
    addResolver stmts names =
      Except.ok
        ({ templates := [Template.lit mockRequestTemplate,
             Template.vtl (specDirectResponse stmts)],
           pipelineConfig := [],
           requestMappingTemplate := Template.lit mockRequestTemplate,
           responseMappingTemplate :=
             Template.vtl (specDirectResponse stmts) },
         names) ∧
    (specDirectResponse stmts).all (fun c => !c.usesStash) = true ∧
    (mockRequestTemplate.toList.filter
        (fun c => !(c == ' ' || c == '\n'))).asString =
      "\x7b\"version\":\"2018-05-29\",\"payload\":null\x7d" := by
  refine ⟨?_, specDirectResponse_stash_free stmts, by decide⟩
  have hns := (countResolvers_zero_iff stmts).mp h0
  have hgo := synthGo_no_service stmts hns [] names
  unfold addResolver synthesizeFunctions
  rw [if_pos h0, if_pos h0, hgo]
  simp

/-- Witness for the C2 theorem: a body holding a single service-free
return statement. -/
theorem addResolver_zero_services_witness :
    addResolver [RStmt.mk RKind.returnStmt none ("tbl")] emptyUniqueNames =
      Except.ok
        ({ templates := [Template.lit mockRequestTemplate,
             Template.vtl (specDirectResponse
               [RStmt.mk RKind.returnStmt none ("tbl")])],
           pipelineConfig := [],
           requestMappingTemplate := Template.lit mockRequestTemplate,
           responseMappingTemplate :=
             Template.vtl (specDirectResponse
               [RStmt.mk RKind.returnStmt none ("tbl")]) },
         emptyUniqueNames) ∧
    (specDirectResponse [RStmt.mk RKind.returnStmt none ("tbl")]).all
      (fun c => !c.usesStash) = true ∧
    (mockRequestTemplate.toList.filter
        (fun c => !(c == ' ' || c == '\n'))).asString =
      "\x7b\"version\":\"2018-05-29\",\"payload\":null\x7d" :=
  addResolver_zero_services [RStmt.mk RKind.returnStmt none ("tbl")]
    emptyUniqueNames (by rfl)

/-! ### `$SFN.map` / `$SFN.forEach` (node.ts, state-machine compiler) -/

/-- `ASL.ContextName` (asl.ts, not under src/).  Modelled from the
spec: the distinguished name of the workflow-orchestration (ASL)
context; only equality with it matters. -/
def ASLContextName : String := "Amazon States Language"

/-- The expression shapes `mapOrForEach` distinguishes.  Modelled from
the spec where the payload lives outside src/: a function expression
carries its parameter names and an abstract body handle, an object
literal carries (property name, is-a-property-assignment, value)
triples, and everything else is opaque. -/
inductive SExpr
  | functionExpr (params : List String) (body : Nat)
  | objectLit (props : List (String × Bool × SExpr))
  | numberLit (n : Int)
  | other

/-- Whether an expression is a `NumberLiteralExpr`. -/
def isNumberLit : SExpr → Bool
  | SExpr.numberLit _ => true
  | _ => false

/-- A `$SFN` call site: its named arguments (`getArgument(name)?.expr`,
where an argument may be present with no expression) and the verdict of
`isMapOrForEach` (util.ts, not under src/ — modelled from the spec as a
per-call shape flag). -/
structure SfnCall where
  args : List (String × Option SExpr)
  mapOrForEachShape : Bool

/-- `call.getArgument(name)?.expr`. -/
def getArgumentExpr (call : SfnCall) (name : String) : Option SExpr :=
  match call.args.lookup name with
  | some e => e
  | none => none

/-- `props.getProperty(name)` (expression.ts, not under src/).
Modelled from the spec: the first property with the given name. -/
def getProperty (props : List (String × Bool × SExpr)) (name : String) :
    Option (String × Bool × SExpr) :=
  props.find? (fun p => p.1 == name)

/-- The compilation context handed to a `$SFN` intrinsic.  Modelled
from the spec: context.ts/asl.ts are not under src/; `execute` compiles
a function body to its state list, `stepStart` is
`getStateName(body.step()!)`, and `toJsonPath` renders a data path. -/
structure CallContext where
  kind : String
  execute : Nat → List (String × String)
  stepStart : Nat → String
  toJsonPath : SExpr → String

/-- The emitted `Map` node: the optional `MaxConcurrency` field, the
iterator sub-graph (`States`/`StartAt`), `ItemsPath` and the iteration
`Parameters`. -/
structure MapTask where
  maxConcurrency : Option Int
  states : List (String × String)
  startAt : String
  itemsPath : String
  parameters : List (String × String)

/-- The `Parameters` map: parameter 0 binds the iteration item,
parameter 1 the iteration index, and any further parameter the source
array path. -/
def mapParams : Nat → List String → String → List (String × String)
  | _, [], _ => []
  | i, p :: ps, arrayPath =>
      (p ++ ".$",
       if i = 0 then "$$.Map.Item.Value"
       else if i = 1 then "$$.Map.Item.Index"
       else arrayPath) :: mapParams (i + 1) ps arrayPath

/-- The `props` validation inside `mapOrForEach`: an absent argument
yields no concurrency bound; a non-object argument is rejected; an
object must carry a `maxConcurrency` property assignment whose value is
a number literal, which must be positive. -/
def resolveMaxConcurrency : Option SExpr → Except String (Option Int)
  | none => Except.ok none
  | some (SExpr.objectLit props) =>
      match getProperty props ("maxConcurrency") with
      | some p =>
          match p.2.1, p.2.2 with
          | true, SExpr.numberLit n =>
              if n ≤ 0 then Except.error ("maxConcurrency must be > 0")
              else Except.ok (some n)
          | _, _ =>
              Except.error ("property 'maxConcurrency' must be a NumberLiteralExpr")
      | none =>
          Except.error ("property 'maxConcurrency' must be a NumberLiteralExpr")
  | some _ => Except.error ("argument 'props' must be an ObjectLiteralExpr")

/-- `mapOrForEach` (node.ts lines 565-633): reject outside the ASL
context and calls that are not map/forEach-shaped; require a
function-expression `callbackfn`; validate `props`; require `array`;
emit the Map node with the compiled iterator, the items path and the
parameter bindings. -/
def mapOrForEach (kind : String) (call : SfnCall) (context : CallContext) :
    Except String MapTask :=
  if context.kind ≠ ASLContextName then
    Except.error ("$SFN." ++ kind ++ " is only supported by " ++ ASLContextName)
  else if call.mapOrForEachShape then
    match getArgumentExpr call ("callbackfn") with
    | some (SExpr.functionExpr params body) =>
        match resolveMaxConcurrency (getArgumentExpr call ("props")) with
        | Except.error e => Except.error e
        | Except.ok maxConcurrency =>
            match getArgumentExpr call ("array") with
            | none => Except.error ("missing argument 'array'")
            | some array =>
                let arrayPath := context.toJsonPath array
                Except.ok
                  { maxConcurrency := maxConcurrency,
                    states := context.execute body,
                    startAt := context.stepStart body,
                    itemsPath := arrayPath,
                    parameters := mapParams 0 params arrayPath }
    | _ => Except.error ("missing callbackfn in $SFN.map")
  else Except.error ("invalid arguments to $SFN.map")

/-- **C7**: for a `$SFN.map`/`$SFN.forEach` call compiled in the ASL
context whose `props` argument is an object literal carrying a
`maxConcurrency` property assignment: a number-literal value `n ≤ 0`
(in particular 0) fails with the invalid-concurrency error; the
number-literal value 2 succeeds and the emitted Map node carries
`MaxConcurrency: 2`; a value that is not a number literal fails with
the not-a-number-literal error. -/
theorem mapOrForEach_maxConcurrency (kind : String) (call : SfnCall)
    (context : CallContext) (params : List String) (body : Nat)
    (props : List (String × Bool × SExpr)) (p : String × Bool × SExpr)
    (arr : SExpr) (n : Int)
    (hctx : context.kind = ASLContextName)
    (hshape : call.mapOrForEachShape = true)
    (hcb : getArgumentExpr call ("callbackfn") =
      some (SExpr.functionExpr params body))
    (hprops : getArgumentExpr call ("props") = some (SExpr.objectLit props))
    (hp : getProperty props ("maxConcurrency") = some p)
    (hpa : p.2.1 = true)
    (harr : getArgumentExpr call ("array") = some arr) :
    (p.2.2 = SExpr.numberLit n → n ≤ 0 →
      mapOrForEach kind call context =
        Except.error ("maxConcurrency must be > 0")) ∧
    (p.2.2 = SExpr.numberLit 2 →
      mapOrForEach kind call context =
        Except.ok
          { maxConcurrency := some 2,
            states := context.execute body,
            startAt := context.stepStart body,
            itemsPath := context.toJsonPath arr,
            parameters := mapParams 0 params (context.toJsonPath arr) }) ∧
    (isNumberLit p.2.2 = false →
      mapOrForEach kind call context =
        Except.error ("property 'maxConcurrency' must be a NumberLiteralExpr")) := by
  refine ⟨?_, ?_, ?_⟩
  · intro hv hn
    simp [mapOrForEach, hctx, hshape, hcb, hprops, resolveMaxConcurrency,
      hp, hpa, hv, hn]
  · intro hv
    simp [mapOrForEach, hctx, hshape, hcb, hprops, resolveMaxConcurrency,
      hp, hpa, hv, harr]
  · intro hv
    cases hval : p.2.2 with
    | numberLit m =>
        rw [hval] at hv
        simp [isNumberLit] at hv
    | functionExpr ps2 b2 =>
        simp [mapOrForEach, hctx, hshape, hcb, hprops, resolveMaxConcurrency,
          hp, hpa, hval]
    | objectLit ps2 =>
        simp [mapOrForEach, hctx, hshape, hcb, hprops, resolveMaxConcurrency,
          hp, hpa, hval]
    | other =>
        simp [mapOrForEach, hctx, hshape, hcb, hprops, resolveMaxConcurrency,
          hp, hpa, hval]

/-- A concrete `$SFN.map` call for the C7 witness: a single-parameter
callback, `props` carrying `maxConcurrency: 2`, and an array argument. -/
def sfnWitnessCall : SfnCall :=
  { args := [("callbackfn", some (SExpr.functionExpr [("item")] 0)),
             ("props", some (SExpr.objectLit
               [("maxConcurrency", true, SExpr.numberLit 2)])),
             ("array", some SExpr.other)],
    mapOrForEachShape := true }

/-- A concrete ASL compilation context for the C7 witness. -/
def sfnWitnessContext : CallContext :=
  { kind := ASLContextName,
    execute := fun _ => [("S1", "Task")],
    stepStart := fun _ => "S1",
    toJsonPath := fun _ => "$.items" }

/-- Witness for the C7 theorem: at the concrete call with
`maxConcurrency: 2` the success branch applies and the other branches
hold vacuously. -/
theorem mapOrForEach_maxConcurrency_witness :
    (SExpr.numberLit 2 = SExpr.numberLit 0 → (0 : Int) ≤ 0 →
      mapOrForEach ("map") sfnWitnessCall sfnWitnessContext =
        Except.error ("maxConcurrency must be > 0")) ∧
    (SExpr.numberLit 2 = SExpr.numberLit 2 →
      mapOrForEach ("map") sfnWitnessCall sfnWitnessContext =
        Except.ok
          { maxConcurrency := some 2,
            states := sfnWitnessContext.execute 0,
            startAt := sfnWitnessContext.stepStart 0,
            itemsPath := sfnWitnessContext.toJsonPath SExpr.other,
            parameters := mapParams 0 [("item")]
              (sfnWitnessContext.toJsonPath SExpr.other) }) ∧
    (isNumberLit (SExpr.numberLit 2) = false →
      mapOrForEach ("map") sfnWitnessCall sfnWitnessContext =
        Except.error ("property 'maxConcurrency' must be a NumberLiteralExpr")) :=
  mapOrForEach_maxConcurrency ("map") sfnWitnessCall sfnWitnessContext
    [("item")] 0 [("maxConcurrency", true, SExpr.numberLit 2)]
    ("maxConcurrency", true, SExpr.numberLit 2) SExpr.other 0
    (by rfl) (by rfl) (by rfl) (by rfl) (by rfl) (by rfl) (by rfl)

end Functionless
